import Mathlib

/-!
Verification development for the buglab maze-score solver.

The definitions below are a shallow embedding of the C++ core: the grid
layout (`Maze`), the connectivity precheck (`has_path_to_finish`), the
deterministic walk simulator (`calculate_score`), the memoized scoring and
global-dedup substrate (`SharedCtx`), the candidate generator and the two
frontier-based search strategies.  Grid width and height are fields of the
maze value (the C++ fixes them via compile-time config constants); loops
are embedded as fuel-based structural recursion, with instrumentation
(final step counter, simulation-run counter, generation log) where a claim
speaks about execution counts.
-/

/-- Grid coordinate pair, mirroring struct Point of the source. -/
structure Point where
  coordinate_x : Int
  coordinate_y : Int
deriving DecidableEq

instance : Add Point :=
  ⟨fun a b => ⟨a.coordinate_x + b.coordinate_x, a.coordinate_y + b.coordinate_y⟩⟩

/-- Unit move with its tie-break priority, mirroring struct Direction. -/
structure Direction where
  delta : Point
  priority : Int
deriving DecidableEq

namespace Directions

def LEFT : Direction := ⟨⟨-1, 0⟩, 1⟩

def UP : Direction := ⟨⟨0, -1⟩, 2⟩

def RIGHT : Direction := ⟨⟨1, 0⟩, 3⟩

def DOWN : Direction := ⟨⟨0, 1⟩, 4⟩

def ALL : List Direction := [UP, DOWN, LEFT, RIGHT]

end Directions

/-- Wall grid with its dimensions; `is_wall_at` is the wall mask
(the C++ stores a vector of vectors of bool of exactly this shape). -/
structure Maze where
  W : Nat
  H : Nat
  is_wall_at : Point → Bool

def START_POINT : Point := ⟨0, 0⟩

def FINISH_POINT (m : Maze) : Point := ⟨(m.W : Int) - 1, (m.H : Int) - 1⟩

def Maze.is_within_bounds (m : Maze) (p : Point) : Bool :=
  decide (0 ≤ p.coordinate_y) && decide (p.coordinate_y < (m.H : Int)) &&
  decide (0 ≤ p.coordinate_x) && decide (p.coordinate_x < (m.W : Int))

def Maze.set_wall_at (m : Maze) (p : Point) (b : Bool) : Maze :=
  { m with is_wall_at := fun q => if q = p then b else m.is_wall_at q }

/-- Canonical key: row-major list of wall bits (the C++ builds the same
sequence as a string of one-bit characters). -/
def Maze.to_string_representation (m : Maze) : List Bool :=
  (List.range m.H).flatMap fun (y : Nat) =>
    (List.range m.W).map fun (x : Nat) => m.is_wall_at ⟨(x : Int), (y : Int)⟩

def emptyMaze (W H : Nat) : Maze := ⟨W, H, fun _ => false⟩

/-- Neighbor handling of the breadth-first traversal: enqueue an in-bounds,
unvisited, non-wall neighbor of the current point and mark it visited. -/
def bfsExpandStep (m : Maze) (cur : Point) (acc : (Point → Bool) × List Point)
    (dir : Direction) : (Point → Bool) × List Point :=
  let next_point := cur + dir.delta
  if m.is_within_bounds next_point = true ∧ acc.1 next_point = false ∧
      m.is_wall_at next_point = false then
    (fun q => if q = next_point then true else acc.1 q, acc.2 ++ [next_point])
  else acc

/-- One dequeue step of the breadth-first expansion: push the in-bounds,
unvisited, non-wall neighbors of the current point. -/
def bfsExpand (m : Maze) (cur : Point) (acc : (Point → Bool) × List Point) :
    (Point → Bool) × List Point :=
  Directions.ALL.foldl (bfsExpandStep m cur) acc

def bfsLoop (m : Maze) (fuel : Nat) (visited : Point → Bool) (q : List Point) : Bool :=
  match fuel, q with
  | 0, _ => false
  | _ + 1, [] => false
  | fuel + 1, cur :: rest =>
    if cur = FINISH_POINT m then true
    else
      let acc := bfsExpand m cur (visited, rest)
      bfsLoop m fuel acc.1 acc.2

/-- Connectivity check: fail fast on a walled start or finish, then a
breadth-first traversal from the start (the fuel W*H+1 dominates the
number of dequeues, since every enqueue marks a distinct cell visited). -/
def Maze.has_path_to_finish (m : Maze) : Bool :=
  if m.is_wall_at START_POINT = true ∨ m.is_wall_at (FINISH_POINT m) = true then false
  else bfsLoop m (m.W * m.H + 1) (fun p => decide (p = START_POINT)) [START_POINT]

/-- Walk state: per-cell visit counts, current position, last direction. -/
structure VState where
  visit : Point → Int
  pos : Point
  lastDir : Direction

def bumpVisit (v : Point → Int) (p : Point) : Point → Int :=
  fun q => if q = p then v q + 1 else v q

/-- Scan the four neighbors keeping the minimum visit count and the tie
set, exactly as the simulator's inner for-loop does (a value of -1 marks
both a wall cell and the unset minimum sentinel). -/
def scanStep (m : Maze) (visit : Point → Int) (pos : Point)
    (acc : Int × List Direction) (dir : Direction) : Int × List Direction :=
  let next_pos := pos + dir.delta
  if m.is_within_bounds next_pos = false ∨ visit next_pos = -1 then acc
  else if acc.1 = -1 ∨ visit next_pos < acc.1 then (visit next_pos, [dir])
  else if visit next_pos = acc.1 then (acc.1, acc.2 ++ [dir])
  else acc

def scanDirs (m : Maze) (visit : Point → Int) (pos : Point) : Int × List Direction :=
  Directions.ALL.foldl (scanStep m visit pos) (-1, [])

/-- First maximal element by priority, as std::max_element computes it. -/
def maxByPriority (d : Direction) : List Direction → Direction
  | [] => d
  | x :: xs => maxByPriority (if d.priority < x.priority then x else d) xs

/-- Tie-break rule: directional momentum if the last direction's delta is
in the tie set, otherwise the highest-priority member. -/
def chooseDirection (best : List Direction) (last : Direction) : Direction :=
  if ∃ d ∈ best, d.delta = last.delta then last
  else
    match best with
    | [] => last
    | b :: bs => maxByPriority b bs

/-- One iteration body of the walk: none when the tie set is empty (the
walk is stuck), otherwise the moved state. -/
def simStep (m : Maze) (s : VState) : Option VState :=
  match scanDirs m s.visit s.pos with
  | (_, []) => none
  | (_, b :: bs) =>
    let chosen := chooseDirection (b :: bs) s.lastDir
    let next_pos := s.pos + chosen.delta
    some ⟨bumpVisit s.visit next_pos, next_pos, chosen⟩

def stepBudget (m : Maze) : Nat := m.W * m.H * 1000

/-- The simulator's while loop; returns the score together with the final
value of the step counter.  The C++ guard is a post-increment compare, so
the old counter value is tested and the loop continues with its successor. -/
def simLoop (m : Maze) (fuel : Nat) (s : VState) (steps : Nat) : Int × Nat :=
  match fuel with
  | 0 => (-2, steps)
  | fuel + 1 =>
    if s.pos = FINISH_POINT m then ((steps : Int), steps)
    else if stepBudget m < steps then (-2, steps)
    else
      match simStep m s with
      | none => (-1, steps)
      | some s2 => simLoop m fuel s2 (steps + 1)

def initVisit (m : Maze) : Point → Int :=
  fun p => if p = START_POINT then 1 else if m.is_wall_at p then -1 else 0

def initState (m : Maze) : VState := ⟨initVisit m, START_POINT, Directions.DOWN⟩

/-- Walk simulator with its final step counter (zero when the connectivity
check rejects the layout before the loop runs).  Fuel stepBudget+2 covers
the guard: the counter can reach stepBudget+1 and is then cut off. -/
def calculate_scoreI (m : Maze) : Int × Nat :=
  if m.has_path_to_finish = false then (-1, 0)
  else simLoop m (stepBudget m + 2) (initState m) 0

def calculate_score (m : Maze) : Int := (calculate_scoreI m).1

/-- n-fold iteration of the walk body, for stating trajectory invariants. -/
def simIter (m : Maze) : Nat → VState → Option VState
  | 0, s => some s
  | n + 1, s =>
    match simStep m s with
    | none => none
    | some s2 => simIter m n s2

def m22 : Maze := emptyMaze 2 2

/-- Visit count of cell (0,1) right after the first simulator step on the
empty 2x2 grid. -/
def c1_visit_after_step1 : Option Int :=
  (simStep m22 (initState m22)).map fun s => s.visit ⟨0, 1⟩

/-- Four-connected reachability from the start over in-bounds, open cells:
the mathematical reading of "there is an open path from start to finish". -/
inductive Reach (m : Maze) : Point → Prop
  | start : Reach m START_POINT
  | step {p : Point} (d : Direction) : Reach m p → d ∈ Directions.ALL →
      m.is_within_bounds (p + d.delta) = true → m.is_wall_at (p + d.delta) = false →
      Reach m (p + d.delta)

/-- Concrete layout whose start cell is a wall. -/
def c2maze : Maze := ⟨2, 2, fun p => decide (p = START_POINT)⟩

/-- Walk invariant: the position is an in-bounds open cell and every wall
cell still carries the -1 marker in the visit grid. -/
def WalkInv (m : Maze) (s : VState) : Prop :=
  m.is_within_bounds s.pos = true ∧ m.is_wall_at s.pos = false ∧
  ∀ p, m.is_wall_at p = true → s.visit p = -1

/-- State of the walk on the empty 2x2 grid after its first step. -/
def c10state : VState := ⟨bumpVisit (initVisit m22) ⟨0, 1⟩, ⟨0, 1⟩, Directions.DOWN⟩

/-- Shared solver substrate: memoized score cache (association list from
canonical key to score), globally visited keys, best-known score, emitted
records, and an instrumentation counter of simulator invocations. -/
structure SharedCtx where
  score_cache : List (List Bool × Int)
  globally_visited : List (List Bool)
  highest_known : Int
  records : List (Maze × Int)
  simRuns : Nat

def cacheFind : List (List Bool × Int) → List Bool → Option Int
  | [], _ => none
  | (k, v) :: rest, key => if key = k then some v else cacheFind rest key

/-- Memoized scoring: return the cached score on a hit; otherwise run the
simulator once, store the result under the canonical key, and return it. -/
def get_score_for_maze (ctx : SharedCtx) (m : Maze) : Int × SharedCtx :=
  let repr := m.to_string_representation
  match cacheFind ctx.score_cache repr with
  | some s => (s, ctx)
  | none =>
    let score := calculate_score m
    (score, { ctx with score_cache := (repr, score) :: ctx.score_cache,
                       simRuns := ctx.simRuns + 1 })

/-- Record-sink notification: append the layout/score pair to the emitted
record sequence. -/
def notify_new_record (ctx : SharedCtx) (m : Maze) (score : Int) : SharedCtx :=
  { ctx with records := ctx.records ++ [(m, score)] }

/-- Common update rule shared by the strategies: on a strict improvement
over the best score ever seen, update it and notify the record sink. -/
def record_if_improved (ctx : SharedCtx) (m : Maze) (score : Int) : SharedCtx :=
  if ctx.highest_known < score then
    notify_new_record { ctx with highest_known := score } m score
  else ctx

/-- Solver-base construction: score the empty layout, make it the best
known score, and notify the sink once unconditionally. -/
def initialCtx (W H : Nat) : SharedCtx :=
  let ctx0 : SharedCtx := ⟨[], [], 0, [], 0⟩
  let p := get_score_for_maze ctx0 (emptyMaze W H)
  notify_new_record { p.2 with highest_known := p.1 } (emptyMaze W H) p.1

/-- Row-major cell enumeration, outer loop over rows as in the source. -/
def allCells (m : Maze) : List Point :=
  (List.range m.H).flatMap fun (y : Nat) =>
    (List.range m.W).map fun (x : Nat) => ⟨(x : Int), (y : Int)⟩

/-- Body of the candidate generator's per-cell loop: skip start, finish and
wall cells, derive the one-wall extension, locally dedup by canonical key,
emit it as a candidate unless globally visited, and enqueue it. -/
def genCellStep (global : List (List Bool)) (cm : Maze) (depth : Nat)
    (acc : List (Maze × Nat) × List (List Bool) × List Maze) (p : Point) :
    List (Maze × Nat) × List (List Bool) × List Maze :=
  if p = START_POINT ∨ p = FINISH_POINT cm ∨ cm.is_wall_at p = true then acc
  else
    let next_maze := cm.set_wall_at p true
    let repr := next_maze.to_string_representation
    if repr ∈ acc.2.1 then acc
    else
      (acc.1 ++ [(next_maze, depth + 1)],
       acc.2.1 ++ [repr],
       if repr ∈ global then acc.2.2 else acc.2.2 ++ [next_maze])

def genExpand (global : List (List Bool)) (cm : Maze) (depth : Nat)
    (acc : List (Maze × Nat) × List (List Bool) × List Maze) :
    List (Maze × Nat) × List (List Bool) × List Maze :=
  (allCells cm).foldl (genCellStep global cm depth) acc

def genLoop (global : List (List Bool)) (jd : Nat) (fuel : Nat)
    (queue : List (Maze × Nat)) (localV : List (List Bool)) (cands : List Maze) :
    List Maze :=
  match fuel, queue with
  | 0, _ => cands
  | _ + 1, [] => cands
  | fuel + 1, (cm, depth) :: rest =>
    if jd ≤ depth then genLoop global jd fuel rest localV cands
    else
      let acc := genExpand global cm depth (rest, localV, cands)
      genLoop global jd fuel acc.1 acc.2.1 acc.2.2

/-- Breadth-first candidate generation up to the jump depth; the fuel is a
crude upper bound on the number of dequeues, which is irrelevant for the
depth-1 behavior proved below (all deeper entries are skipped whatever the
remaining fuel). -/
def generate_unique_candidates (global : List (List Bool)) (initial_maze : Maze)
    (jump_depth : Nat) : List Maze :=
  genLoop global jump_depth ((initial_maze.W * initial_maze.H + 2) ^ (jump_depth + 1))
    [(initial_maze, 0)] [initial_maze.to_string_representation] []

/-- Greedy backtracking solver state: shared substrate, LIFO frontier and a
log of the depths passed to the candidate generator (instrumentation for
the deep-jump policy). -/
structure GreedyCtx where
  shared : SharedCtx
  stack : List (Maze × Int)
  genLog : List Nat

/-- Score every candidate through the cache, keeping those that strictly
improve on the threshold score. -/
def score_candidates (ctx : SharedCtx) (cands : List Maze) (threshold : Int) :
    List (Maze × Int) × SharedCtx :=
  cands.foldl
    (fun acc c =>
      let p := get_score_for_maze acc.2 c
      if threshold < p.1 then (acc.1 ++ [(c, p.1)], p.2) else (acc.1, p.2))
    ([], ctx)

def insertAsc (x : Maze × Int) : List (Maze × Int) → List (Maze × Int)
  | [] => [x]
  | y :: ys => if x.2 < y.2 then x :: y :: ys else y :: insertAsc x ys

/-- Ascending sort by score (a refinement of the unstable std::sort with
the score comparator: sorted and a permutation of the input). -/
def sortAsc (l : List (Maze × Int)) : List (Maze × Int) := l.foldr insertAsc []

/-- Handling of one improvement: record on global improvement, push onto
the LIFO frontier, and mark globally visited at push time. -/
def pushImpStep (g : GreedyCtx) (s : Maze × Int) : GreedyCtx :=
  let sh := record_if_improved g.shared s.1 s.2
  { g with
    shared := { sh with globally_visited :=
      sh.globally_visited ++ [s.1.to_string_representation] },
    stack := s :: g.stack }

/-- Push the sorted improvements in ascending order of score. -/
def push_improvements (g : GreedyCtx) (sorted : List (Maze × Int)) : GreedyCtx :=
  sorted.foldl pushImpStep g

def evaluate_and_process_candidates (g : GreedyCtx) (cands : List Maze)
    (stateScore : Int) : Bool × GreedyCtx :=
  let pr := score_candidates g.shared cands stateScore
  let g2 := { g with shared := pr.2 }
  match pr.1 with
  | [] => (false, g2)
  | c :: cs => (true, push_improvements g2 (sortAsc (c :: cs)))

def find_and_push_potential_next_states (g : GreedyCtx) (st : Maze × Int)
    (depth : Nat) : Bool × GreedyCtx :=
  let cands := generate_unique_candidates g.shared.globally_visited st.1 depth
  let g1 := { g with genLog := g.genLog ++ [depth] }
  match cands with
  | [] => (false, g1)
  | c :: cs => evaluate_and_process_candidates g1 (c :: cs) st.2

/-- One iteration of the greedy solver's while loop: pop the top state,
try depth-1 candidates, and only on failure with a configured deep-jump
depth D greater than 1 retry generation at depth D. -/
def greedyStep (D : Nat) (g : GreedyCtx) : GreedyCtx :=
  match g.stack with
  | [] => g
  | st :: rest =>
    let g1 := { g with stack := rest }
    let pr := find_and_push_potential_next_states g1 st 1
    if pr.1 = false ∧ 1 < D then (find_and_push_potential_next_states pr.2 st D).2
    else pr.2

def greedyInit (W H : Nat) : GreedyCtx :=
  let sh := initialCtx W H
  { shared := { sh with globally_visited :=
      sh.globally_visited ++ [(emptyMaze W H).to_string_representation] },
    stack := [(emptyMaze W H, sh.highest_known)],
    genLog := [] }

def greedyRun (D : Nat) : Nat → GreedyCtx → GreedyCtx
  | 0, g => g
  | fuel + 1, g =>
    match g.stack with
    | [] => g
    | _ :: _ => greedyRun D fuel (greedyStep D g)

/-- Best-first solver state: shared substrate and a max-priority frontier
modeled as an unordered list with an explicit max extraction. -/
structure BestCtx where
  shared : SharedCtx
  pq : List (Maze × Int)

/-- Extract a maximal-score entry (ties resolved toward the earlier entry,
any resolution refines the arbitrary tie order of the priority queue). -/
def popMax : List (Maze × Int) → Option ((Maze × Int) × List (Maze × Int))
  | [] => none
  | x :: xs =>
    match popMax xs with
    | none => some (x, [])
    | some (m, rest) => if x.2 < m.2 then some (m, x :: rest) else some (x, xs)

def placeable_cells (m : Maze) : List Point :=
  (allCells m).filter fun p =>
    ¬(p = START_POINT ∨ p = FINISH_POINT m ∨ m.is_wall_at p = true)

/-- Best-first handling of one candidate cell: skip if globally visited,
else score it, record on improvement, push it into the frontier and mark
it visited — with no local-improvement requirement. -/
def bestAdmitStep (base : Maze) (b : BestCtx) (p : Point) : BestCtx :=
  let next_maze := base.set_wall_at p true
  let repr := next_maze.to_string_representation
  if repr ∈ b.shared.globally_visited then b
  else
    let pr := get_score_for_maze b.shared next_maze
    let sh := record_if_improved pr.2 next_maze pr.1
    { shared := { sh with globally_visited := sh.globally_visited ++ [repr] },
      pq := (next_maze, pr.1) :: b.pq }

def bestAdmit (b : BestCtx) (cells : List Point) (base : Maze) : BestCtx :=
  cells.foldl (bestAdmitStep base) b

/-- One iteration of the best-first while loop; the candidate iteration
order is supplied externally (the source may shuffle it). -/
def bestFirstStep (order : List Point → List Point) (b : BestCtx) : BestCtx :=
  match popMax b.pq with
  | none => b
  | some (st, rest) =>
    bestAdmit { b with pq := rest } (order (placeable_cells st.1)) st.1

def bestInit (W H : Nat) : BestCtx :=
  let sh := initialCtx W H
  { shared := { sh with globally_visited :=
      sh.globally_visited ++ [(emptyMaze W H).to_string_representation] },
    pq := [(emptyMaze W H, sh.highest_known)] }

def bestFirstRun (order : Nat → List Point → List Point) :
    Nat → Nat → BestCtx → BestCtx
  | 0, _, b => b
  | fuel + 1, idx, b =>
    match popMax b.pq with
    | none => b
    | some _ => bestFirstRun order fuel (idx + 1) (bestFirstStep (order idx) b)

def emptyCtx : SharedCtx := ⟨[], [], 0, [], 0⟩

/-- Invariant of the depth-1 candidate enumeration fold: the base key is
locally recorded, every emitted candidate has a locally recorded key that
is neither globally visited nor the base key, keeps the base dimensions
and open start/finish corners, and candidate keys are pairwise distinct. -/
def GenInv (base : Maze) (global : List (List Bool))
    (acc : List (Maze × Nat) × List (List Bool) × List Maze) : Prop :=
  base.to_string_representation ∈ acc.2.1 ∧
  (∀ c ∈ acc.2.2,
    c.to_string_representation ∈ acc.2.1 ∧
    c.to_string_representation ∉ global ∧
    c.to_string_representation ≠ base.to_string_representation ∧
    c.W = base.W ∧ c.H = base.H ∧
    c.is_wall_at START_POINT = false ∧ c.is_wall_at (FINISH_POINT base) = false) ∧
  acc.2.2.Pairwise
    (fun a b => a.to_string_representation ≠ b.to_string_representation)

/-- Record-sink invariant: the emitted scores are strictly increasing and
the last emitted score is exactly the current best-known score (every
best-score update is paired with a notification and conversely). -/
def RecInv (sh : SharedCtx) : Prop :=
  List.Chain' (· < ·) (sh.records.map (fun r => r.2)) ∧
  sh.records.getLast?.map (fun r => r.2) = some sh.highest_known

/-- Cells of one best-first step whose derived layout's canonical key is
not yet globally visited: exactly those the step admits. -/
def admittedCells (v : List (List Bool)) (base : Maze) (cells : List Point) :
    List Point :=
  cells.filter fun p => (base.set_wall_at p true).to_string_representation ∉ v

/-- Score a layout would receive from the cache-backed scorer: the cached
value on a hit, the simulator's score on a miss. -/
def scoreOf (ctx : SharedCtx) (c : Maze) : Int :=
  match cacheFind ctx.score_cache c.to_string_representation with
  | some s => s
  | none => calculate_score c

theorem Point.add_def (a b : Point) :
    a + b = ⟨a.coordinate_x + b.coordinate_x, a.coordinate_y + b.coordinate_y⟩ := rfl

/-- C1 counterexample: the first step of the walk on the empty 2x2 grid
moves down to (0,1) and leaves its visit count at 1, not 2 as the claim
states. -/
theorem claim1_counterexample :
    c1_visit_after_step1 = some 1 ∧ c1_visit_after_step1 ≠ some 2 := by
  decide

/-- C1 (amended): on the 2-wide by 2-high wall-free grid, step 1 has tied
neighbors down and right (both 0 visits), the seeded prior direction down
is tie-eligible, so the walk moves down to (0,1), whose visit count
becomes 1; step 2 sees neighbors up (1 visit) and right (0 visits), the
minimum is right alone, so it moves right to (1,1) = finish; the returned
score is exactly 2. -/
theorem claim1_worked_example_trace :
    scanDirs m22 (initState m22).visit (initState m22).pos =
      (0, [Directions.DOWN, Directions.RIGHT]) ∧
    (simStep m22 (initState m22)).map (fun s => s.pos) = some ⟨0, 1⟩ ∧
    (simStep m22 (initState m22)).map (fun s => s.lastDir) = some Directions.DOWN ∧
    (simStep m22 (initState m22)).map (fun s => s.visit ⟨0, 1⟩) = some 1 ∧
    (simStep m22 (initState m22)).map (fun s => s.visit ⟨0, 0⟩) = some 1 ∧
    (simStep m22 (initState m22)).map (fun s => scanDirs m22 s.visit s.pos) =
      some (0, [Directions.RIGHT]) ∧
    (simIter m22 2 (initState m22)).map (fun s => s.pos) = some ⟨1, 1⟩ ∧
    (simIter m22 2 (initState m22)).map (fun s => s.lastDir) = some Directions.RIGHT ∧
    ⟨1, 1⟩ = FINISH_POINT m22 ∧
    calculate_score m22 = 2 := by
  decide

theorem maxByPriority_mem (d : Direction) (l : List Direction) :
    maxByPriority d l = d ∨ maxByPriority d l ∈ l := by
  induction l generalizing d with
  | nil => exact Or.inl rfl
  | cons x xs ih =>
    simp only [maxByPriority]
    rcases ih (if d.priority < x.priority then x else d) with h | h
    · rw [h]
      split
      · exact Or.inr (List.mem_cons_self _ _)
      · exact Or.inl rfl
    · exact Or.inr (List.mem_cons_of_mem _ h)

theorem maxByPriority_ge (d : Direction) (l : List Direction) :
    d.priority ≤ (maxByPriority d l).priority ∧
    ∀ x ∈ l, x.priority ≤ (maxByPriority d l).priority := by
  induction l generalizing d with
  | nil => exact ⟨le_refl _, by simp⟩
  | cons x xs ih =>
    simp only [maxByPriority]
    obtain ⟨h1, h2⟩ := ih (if d.priority < x.priority then x else d)
    constructor
    · refine le_trans ?_ h1
      split
      · next hlt => exact le_of_lt hlt
      · exact le_refl _
    · intro y hy
      rcases List.mem_cons.mp hy with rfl | hy
      · refine le_trans ?_ h1
        split
        · exact le_refl _
        · next hnlt => exact le_of_not_lt hnlt
      · exact h2 y hy

/-- C4: whenever the tie set is non-empty, the walk keeps the previous
direction when its delta is in the tie set (momentum), and otherwise picks
a tie-set member of maximal priority, with down = 4 beating right = 3
beating up = 2 beating left = 1. -/
theorem claim4_tie_break_rule (best : List Direction) (last : Direction)
    (h : best ≠ []) :
    ((∃ d ∈ best, d.delta = last.delta) → chooseDirection best last = last) ∧
    ((∀ d ∈ best, d.delta ≠ last.delta) →
      chooseDirection best last ∈ best ∧
      ∀ d ∈ best, d.priority ≤ (chooseDirection best last).priority) ∧
    Directions.DOWN.priority = 4 ∧ Directions.RIGHT.priority = 3 ∧
    Directions.UP.priority = 2 ∧ Directions.LEFT.priority = 1 := by
  refine ⟨?_, ?_, rfl, rfl, rfl, rfl⟩
  · intro hmem
    simp only [chooseDirection, if_pos hmem]
  · cases best with
    | nil => exact absurd rfl h
    | cons b bs =>
      intro hno
      have hnex : ¬ ∃ d ∈ b :: bs, d.delta = last.delta := by
        rintro ⟨d, hd, hdel⟩
        exact hno d hd hdel
      have hc : chooseDirection (b :: bs) last = maxByPriority b bs := if_neg hnex
      rw [hc]
      constructor
      · rcases maxByPriority_mem b bs with hm | hm
        · rw [hm]; exact List.mem_cons_self _ _
        · exact List.mem_cons_of_mem _ hm
      · intro d hd
        obtain ⟨h1, h2⟩ := maxByPriority_ge b bs
        rcases List.mem_cons.mp hd with rfl | hd
        · exact h1
        · exact h2 d hd

/-- C4 witness: concrete application with tie set consisting of up alone
and prior direction down. -/
theorem claim4_witness :
    ([Directions.UP] ≠ ([] : List Direction)) ∧
    (((∃ d ∈ [Directions.UP], d.delta = Directions.DOWN.delta) →
        chooseDirection [Directions.UP] Directions.DOWN = Directions.DOWN) ∧
     ((∀ d ∈ [Directions.UP], d.delta ≠ Directions.DOWN.delta) →
        chooseDirection [Directions.UP] Directions.DOWN ∈ [Directions.UP] ∧
        ∀ d ∈ [Directions.UP],
          d.priority ≤ (chooseDirection [Directions.UP] Directions.DOWN).priority) ∧
     Directions.DOWN.priority = 4 ∧ Directions.RIGHT.priority = 3 ∧
     Directions.UP.priority = 2 ∧ Directions.LEFT.priority = 1) :=
  ⟨by decide, claim4_tie_break_rule [Directions.UP] Directions.DOWN (by decide)⟩

theorem bfsExpandStep_reach (m : Maze) (cur : Point) (dir : Direction)
    (acc : (Point → Bool) × List Point) (hcur : Reach m cur)
    (hdir : dir ∈ Directions.ALL) (hacc : ∀ p ∈ acc.2, Reach m p) :
    ∀ p ∈ (bfsExpandStep m cur acc dir).2, Reach m p := by
  intro p hp
  simp only [bfsExpandStep] at hp
  split at hp
  · next hcond =>
    rcases List.mem_append.mp hp with hmem | hmem
    · exact hacc p hmem
    · rcases List.mem_singleton.mp hmem with rfl
      exact Reach.step dir hcur hdir hcond.1 hcond.2.2
  · exact hacc p hp

theorem bfs_foldl_reach (m : Maze) (cur : Point) (hcur : Reach m cur) :
    ∀ (dirs : List Direction), (∀ d ∈ dirs, d ∈ Directions.ALL) →
    ∀ (acc : (Point → Bool) × List Point), (∀ p ∈ acc.2, Reach m p) →
    ∀ p ∈ (dirs.foldl (bfsExpandStep m cur) acc).2, Reach m p := by
  intro dirs
  induction dirs with
  | nil => intro _ acc hacc; simpa using hacc
  | cons d ds ih =>
    intro hsub acc hacc
    simp only [List.foldl_cons]
    exact ih (fun x hx => hsub x (List.mem_cons_of_mem _ hx))
      (bfsExpandStep m cur acc d)
      (bfsExpandStep_reach m cur d acc hcur (hsub d (List.mem_cons_self _ _)) hacc)

theorem bfsLoop_sound (m : Maze) :
    ∀ (fuel : Nat) (visited : Point → Bool) (q : List Point),
    (∀ p ∈ q, Reach m p) → bfsLoop m fuel visited q = true →
    Reach m (FINISH_POINT m) := by
  intro fuel
  induction fuel with
  | zero => intro visited q _ hrun; simp [bfsLoop] at hrun
  | succ fuel ih =>
    intro visited q hq hrun
    match q with
    | [] => simp [bfsLoop] at hrun
    | cur :: rest =>
      rw [bfsLoop] at hrun
      split at hrun
      · next hfin => exact hfin ▸ hq cur (List.mem_cons_self _ _)
      · exact ih _ _
          (bfs_foldl_reach m cur (hq cur (List.mem_cons_self _ _)) Directions.ALL
            (fun _ hx => hx) (visited, rest) (fun p hp => hq p (List.mem_cons_of_mem _ hp)))
          hrun

/-- C2: a layout with a walled start or finish, or with no four-connected
open path from start to finish, is rejected by the connectivity check, and
the simulator returns score -1 with a final step counter of 0 (the walk
loop is never entered). -/
theorem claim2_connectivity_gating (m : Maze)
    (h : m.is_wall_at START_POINT = true ∨ m.is_wall_at (FINISH_POINT m) = true ∨
         ¬ Reach m (FINISH_POINT m)) :
    m.has_path_to_finish = false ∧ calculate_scoreI m = (-1, 0) ∧
    calculate_score m = -1 := by
  have hpath : m.has_path_to_finish = false := by
    by_cases hwall : m.is_wall_at START_POINT = true ∨ m.is_wall_at (FINISH_POINT m) = true
    · simp only [Maze.has_path_to_finish, if_pos hwall]
    · have hnr : ¬ Reach m (FINISH_POINT m) := by
        rcases h with h1 | h2 | h3
        · exact absurd (Or.inl h1) hwall
        · exact absurd (Or.inr h2) hwall
        · exact h3
      simp only [Maze.has_path_to_finish, if_neg hwall]
      cases hrun : bfsLoop m (m.W * m.H + 1) (fun p => decide (p = START_POINT))
          [START_POINT] with
      | false => rfl
      | true =>
        exact absurd
          (bfsLoop_sound m _ _ [START_POINT]
            (fun p hp => (List.mem_singleton.mp hp) ▸ Reach.start) hrun) hnr
  refine ⟨hpath, ?_, ?_⟩
  · simp [calculate_scoreI, hpath]
  · simp [calculate_score, calculate_scoreI, hpath]

/-- C2 witness: the 2x2 layout with a walled start is rejected with score
-1 and zero walk iterations. -/
theorem claim2_witness :
    c2maze.is_wall_at START_POINT = true ∧
    (c2maze.has_path_to_finish = false ∧ calculate_scoreI c2maze = (-1, 0) ∧
     calculate_score c2maze = -1) :=
  ⟨by decide, claim2_connectivity_gating c2maze (Or.inl (by decide))⟩

theorem simLoop_spec (m : Maze) :
    ∀ (fuel : Nat) (s : VState) (steps : Nat),
    steps + fuel = stepBudget m + 2 → steps ≤ stepBudget m + 1 →
    ((simLoop m fuel s steps).1 = -2 → (simLoop m fuel s steps).2 = stepBudget m + 1) ∧
    (0 ≤ (simLoop m fuel s steps).1 →
      (simLoop m fuel s steps).1 = ((simLoop m fuel s steps).2 : Int) ∧
      (simLoop m fuel s steps).2 ≤ stepBudget m + 1) := by
  intro fuel
  induction fuel with
  | zero => intro s steps hsum hle; omega
  | succ fuel ih =>
    intro s steps hsum hle
    rw [simLoop]
    split
    · refine ⟨fun habs => absurd habs ?_, fun _ => ⟨rfl, hle⟩⟩
      simp only [Prod.fst]
      omega
    · split
      · next hguard =>
        refine ⟨fun _ => ?_, fun habs => absurd habs (by norm_num)⟩
        simp only [Prod.snd]
        omega
      · next hguard =>
        cases hstep : simStep m s with
        | none =>
          refine ⟨fun habs => ?_, fun habs => absurd habs (by norm_num)⟩
          simp only [Prod.fst] at habs
          omega
        | some s2 =>
          exact ih s2 (steps + 1) (by omega) (by omega)

theorem simLoop_fuel_irrelevant (m : Maze) :
    ∀ (f1 : Nat), ∀ (f2 : Nat) (s : VState) (steps : Nat),
    steps ≤ stepBudget m + 1 → stepBudget m + 2 ≤ steps + f1 →
    stepBudget m + 2 ≤ steps + f2 →
    simLoop m f1 s steps = simLoop m f2 s steps := by
  intro f1
  induction f1 with
  | zero => intro f2 s steps hle h1 h2; omega
  | succ f1 ih =>
    intro f2 s steps hle h1 h2
    match f2 with
    | 0 => omega
    | f2 + 1 =>
      rw [simLoop, simLoop]
      split
      · rfl
      · split
        · rfl
        · next hguard =>
          cases hstep : simStep m s with
          | none => rfl
          | some s2 => exact ih f2 s2 (steps + 1) (by omega) (by omega) (by omega)

/-- C3: the walk loop's value does not depend on the fuel once the fuel
covers the step budget (the loop genuinely terminates on every layout via
the guard); a returned -2 happens exactly at a final step counter of
stepBudget+1, i.e. only once the number of steps taken exceeds W*H*1000
and never earlier; and any non-sentinel score equals the final step
counter, which never exceeds stepBudget+1. -/
theorem claim3_divergence_guard (m : Maze) :
    (∀ f1 f2 : Nat, stepBudget m + 2 ≤ f1 → stepBudget m + 2 ≤ f2 →
      simLoop m f1 (initState m) 0 = simLoop m f2 (initState m) 0) ∧
    (calculate_score m = -2 → (calculate_scoreI m).2 = stepBudget m + 1) ∧
    (0 ≤ calculate_score m →
      calculate_score m = ((calculate_scoreI m).2 : Int) ∧
      (calculate_scoreI m).2 ≤ stepBudget m + 1) := by
  refine ⟨?_, ?_⟩
  · intro f1 f2 h1 h2
    exact simLoop_fuel_irrelevant m f1 f2 (initState m) 0 (by omega) (by omega) (by omega)
  · unfold calculate_score calculate_scoreI
    split
    · refine ⟨fun habs => ?_, fun habs => absurd habs (by norm_num)⟩
      simp only [Prod.fst] at habs
      omega
    · exact simLoop_spec m (stepBudget m + 2) (initState m) 0 (by omega) (by omega)

/-- C3 witness: on the empty 2x2 grid, two sufficient fuels agree, and the
non-sentinel score 2 equals the final step counter within the budget. -/
theorem claim3_witness :
    (stepBudget m22 + 2 ≤ 4002 ∧ stepBudget m22 + 2 ≤ 4003 ∧ 0 ≤ calculate_score m22) ∧
    simLoop m22 4002 (initState m22) 0 = simLoop m22 4003 (initState m22) 0 ∧
    (calculate_score m22 = ((calculate_scoreI m22).2 : Int) ∧
     (calculate_scoreI m22).2 ≤ stepBudget m22 + 1) :=
  ⟨⟨by decide, by decide, by decide⟩,
   (claim3_divergence_guard m22).1 4002 4003 (by decide) (by decide),
   (claim3_divergence_guard m22).2.2 (by decide)⟩

theorem scanStep_filter (m : Maze) (visit : Point → Int) (pos : Point)
    (acc : Int × List Direction) (dir : Direction)
    (hacc : ∀ d ∈ acc.2, m.is_within_bounds (pos + d.delta) = true ∧
      visit (pos + d.delta) ≠ -1) :
    ∀ d ∈ (scanStep m visit pos acc dir).2,
      m.is_within_bounds (pos + d.delta) = true ∧ visit (pos + d.delta) ≠ -1 := by
  intro d hd
  simp only [scanStep] at hd
  split at hd
  · exact hacc d hd
  · next hcond =>
    push_neg at hcond
    obtain ⟨hb, hv⟩ := hcond
    split at hd
    · rcases List.mem_singleton.mp hd with rfl
      exact ⟨eq_true_of_ne_false hb, hv⟩
    · split at hd
      · rcases List.mem_append.mp hd with hmem | hmem
        · exact hacc d hmem
        · rcases List.mem_singleton.mp hmem with rfl
          exact ⟨eq_true_of_ne_false hb, hv⟩
      · exact hacc d hd

theorem scanDirs_filter (m : Maze) (visit : Point → Int) (pos : Point) :
    ∀ d ∈ (scanDirs m visit pos).2,
      m.is_within_bounds (pos + d.delta) = true ∧ visit (pos + d.delta) ≠ -1 := by
  have aux : ∀ (dirs : List Direction) (acc : Int × List Direction),
      (∀ d ∈ acc.2, m.is_within_bounds (pos + d.delta) = true ∧
        visit (pos + d.delta) ≠ -1) →
      ∀ d ∈ (dirs.foldl (scanStep m visit pos) acc).2,
        m.is_within_bounds (pos + d.delta) = true ∧ visit (pos + d.delta) ≠ -1 := by
    intro dirs
    induction dirs with
    | nil => intro acc hacc; simpa using hacc
    | cons x xs ih =>
      intro acc hacc
      simp only [List.foldl_cons]
      exact ih _ (scanStep_filter m visit pos acc x hacc)
  exact aux Directions.ALL (-1, []) (by simp)

theorem simStep_preserves_inv (m : Maze) (s s2 : VState)
    (hwalls : ∀ p, m.is_wall_at p = true → s.visit p = -1)
    (hstep : simStep m s = some s2) : WalkInv m s2 := by
  unfold simStep at hstep
  cases hscan : scanDirs m s.visit s.pos with
  | mk mv l =>
    rw [hscan] at hstep
    match l, hstep with
    | b :: bs, hstep =>
      have hmem : ∀ d ∈ b :: bs,
          m.is_within_bounds (s.pos + d.delta) = true ∧ s.visit (s.pos + d.delta) ≠ -1 := by
        intro d hd
        have := scanDirs_filter m s.visit s.pos d
        rw [hscan] at this
        exact this hd
      have hchosen : m.is_within_bounds (s.pos + (chooseDirection (b :: bs) s.lastDir).delta)
            = true ∧
          s.visit (s.pos + (chooseDirection (b :: bs) s.lastDir).delta) ≠ -1 := by
        by_cases hex : ∃ d ∈ b :: bs, d.delta = s.lastDir.delta
        · have hc : chooseDirection (b :: bs) s.lastDir = s.lastDir := if_pos hex
          rw [hc]
          obtain ⟨d, hd, hdel⟩ := hex
          rw [← hdel]
          exact hmem d hd
        · have hc : chooseDirection (b :: bs) s.lastDir = maxByPriority b bs := if_neg hex
          rw [hc]
          rcases maxByPriority_mem b bs with hm | hm
          · rw [hm]; exact hmem b (List.mem_cons_self _ _)
          · exact hmem _ (List.mem_cons_of_mem _ hm)
      have hs2 : s2 = ⟨bumpVisit s.visit (s.pos + (chooseDirection (b :: bs) s.lastDir).delta),
          s.pos + (chooseDirection (b :: bs) s.lastDir).delta,
          chooseDirection (b :: bs) s.lastDir⟩ := by
        cases hstep
        rfl
      subst hs2
      obtain ⟨hb, hv⟩ := hchosen
      have hopen : m.is_wall_at (s.pos + (chooseDirection (b :: bs) s.lastDir).delta)
          = false := by
        cases hw : m.is_wall_at (s.pos + (chooseDirection (b :: bs) s.lastDir).delta) with
        | false => rfl
        | true => exact absurd (hwalls _ hw) hv
      refine ⟨hb, hopen, ?_⟩
      intro p hp
      simp only [bumpVisit]
      split
      · next hpe => rw [hpe] at hp; rw [hp] at hopen; cases hopen
      · exact hwalls p hp

theorem simIter_inv (m : Maze) :
    ∀ (n : Nat) (s s2 : VState), WalkInv m s → simIter m n s = some s2 →
    WalkInv m s2 := by
  intro n
  induction n with
  | zero =>
    intro s s2 hinv hiter
    cases hiter
    exact hinv
  | succ n ih =>
    intro s s2 hinv hiter
    rw [simIter] at hiter
    cases hstep : simStep m s with
    | none => rw [hstep] at hiter; cases hiter
    | some s3 =>
      rw [hstep] at hiter
      exact ih s3 s2 (simStep_preserves_inv m s s3 hinv.2.2 hstep) hiter

theorem reach_start_or_in_bounds (m : Maze) (p : Point) (h : Reach m p) :
    p = START_POINT ∨ m.is_within_bounds p = true := by
  cases h with
  | start => exact Or.inl rfl
  | step d hr hd hb hw => exact Or.inr hb

theorem path_gives_open_corners (m : Maze) (h : m.has_path_to_finish = true) :
    m.is_within_bounds START_POINT = true ∧ m.is_wall_at START_POINT = false ∧
    m.is_wall_at (FINISH_POINT m) = false := by
  unfold Maze.has_path_to_finish at h
  split at h
  · cases h
  · next hwalls =>
    push_neg at hwalls
    obtain ⟨hs, hf⟩ := hwalls
    have hreach : Reach m (FINISH_POINT m) :=
      bfsLoop_sound m _ _ [START_POINT]
        (fun p hp => (List.mem_singleton.mp hp) ▸ Reach.start) h
    have hWH : 1 ≤ m.W ∧ 1 ≤ m.H := by
      rcases reach_start_or_in_bounds m _ hreach with heq | hb
      · have hx := congrArg Point.coordinate_x heq
        have hy := congrArg Point.coordinate_y heq
        simp only [FINISH_POINT, START_POINT] at hx hy
        omega
      · simp only [Maze.is_within_bounds, FINISH_POINT, Bool.and_eq_true,
          decide_eq_true_eq] at hb
        omega
    refine ⟨?_, Bool.eq_false_iff.mpr hs, Bool.eq_false_iff.mpr hf⟩
    simp only [Maze.is_within_bounds, START_POINT, Bool.and_eq_true, decide_eq_true_eq]
    refine ⟨⟨⟨le_refl _, ?_⟩, le_refl _⟩, ?_⟩ <;> omega

/-- C10: on every layout accepted by the connectivity check, every state
the walk reaches has its position on an in-bounds, non-wall cell — the
neighbor filter (in-bounds and visit count different from -1, walls being
initialized to -1 and never incremented) keeps the agent inside the open
part of the grid for the whole simulation. -/
theorem claim10_walk_stays_in_bounds (m : Maze) (h : m.has_path_to_finish = true)
    (n : Nat) (s2 : VState) (hiter : simIter m n (initState m) = some s2) :
    m.is_within_bounds s2.pos = true ∧ m.is_wall_at s2.pos = false := by
  obtain ⟨hb, hs, hf⟩ := path_gives_open_corners m h
  have hinit : WalkInv m (initState m) := by
    refine ⟨hb, hs, ?_⟩
    intro p hp
    simp only [initState, initVisit]
    by_cases hpe : p = START_POINT
    · rw [hpe] at hp; rw [hp] at hs; cases hs
    · rw [if_neg hpe, if_pos hp]
  have := simIter_inv m n (initState m) s2 hinit hiter
  exact ⟨this.1, this.2.1⟩

/-- C10 witness: after one step on the empty 2x2 grid the agent sits on an
in-bounds open cell. -/
theorem claim10_witness :
    m22.has_path_to_finish = true ∧
    (m22.is_within_bounds c10state.pos = true ∧ m22.is_wall_at c10state.pos = false) :=
  ⟨by decide, claim10_walk_stays_in_bounds m22 (by decide) 1 c10state rfl⟩

/-- C6: the score cache is idempotent.  Starting from any context in which
a canonical key is uncached, the first call simulates exactly once (the
instrumented run counter increases by one), stores the result under the
canonical key and returns the simulator's score; a second call on any
layout with the same canonical key returns the same score and leaves the
whole context unchanged — no re-simulation. -/
theorem claim6_cache_idempotent (ctx : SharedCtx) (m m2 : Maze)
    (hkey : m2.to_string_representation = m.to_string_representation)
    (hmiss : cacheFind ctx.score_cache m.to_string_representation = none) :
    (get_score_for_maze ctx m).1 = calculate_score m ∧
    (get_score_for_maze ctx m).2.simRuns = ctx.simRuns + 1 ∧
    cacheFind (get_score_for_maze ctx m).2.score_cache m.to_string_representation =
      some (get_score_for_maze ctx m).1 ∧
    (get_score_for_maze (get_score_for_maze ctx m).2 m2).1 =
      (get_score_for_maze ctx m).1 ∧
    (get_score_for_maze (get_score_for_maze ctx m).2 m2).2 =
      (get_score_for_maze ctx m).2 := by
  have h1 : get_score_for_maze ctx m =
      (calculate_score m,
        { ctx with
            score_cache := (m.to_string_representation, calculate_score m) ::
              ctx.score_cache,
            simRuns := ctx.simRuns + 1 }) := by
    simp only [get_score_for_maze, hmiss]
  have h2 : cacheFind ((m.to_string_representation, calculate_score m) ::
      ctx.score_cache) m.to_string_representation = some (calculate_score m) := by
    simp [cacheFind]
  rw [h1]
  refine ⟨rfl, rfl, h2, ?_, ?_⟩
  · simp only [get_score_for_maze, hkey, h2]
  · simp only [get_score_for_maze, hkey, h2]

/-- C6 witness: first and second scoring of the empty 2x2 layout from the
empty context. -/
theorem claim6_witness :
    (m22.to_string_representation = m22.to_string_representation ∧
     cacheFind emptyCtx.score_cache m22.to_string_representation = none) ∧
    ((get_score_for_maze emptyCtx m22).1 = calculate_score m22 ∧
     (get_score_for_maze emptyCtx m22).2.simRuns = emptyCtx.simRuns + 1 ∧
     cacheFind (get_score_for_maze emptyCtx m22).2.score_cache
         m22.to_string_representation = some (get_score_for_maze emptyCtx m22).1 ∧
     (get_score_for_maze (get_score_for_maze emptyCtx m22).2 m22).1 =
       (get_score_for_maze emptyCtx m22).1 ∧
     (get_score_for_maze (get_score_for_maze emptyCtx m22).2 m22).2 =
       (get_score_for_maze emptyCtx m22).2) :=
  ⟨⟨rfl, rfl⟩, claim6_cache_idempotent emptyCtx m22 m22 rfl rfl⟩

theorem foldl_preserve {α : Type} {β : Type} (f : β → α → β) (P : β → Prop)
    (hf : ∀ b a, P b → P (f b a)) :
    ∀ (l : List α) (b : β), P b → P (l.foldl f b) := by
  intro l
  induction l with
  | nil => intro b hb; exact hb
  | cons x xs ih =>
    intro b hb
    exact ih (f b x) (hf b x hb)

theorem genLoop_all_deep (global : List (List Bool)) (jd : Nat) :
    ∀ (fuel : Nat) (queue : List (Maze × Nat)) (localV : List (List Bool))
      (cands : List Maze),
    (∀ e ∈ queue, jd ≤ e.2) →
    genLoop global jd fuel queue localV cands = cands := by
  intro fuel
  induction fuel with
  | zero => intro queue localV cands _; rfl
  | succ fuel ih =>
    intro queue localV cands hdeep
    match queue with
    | [] => rfl
    | (cm, depth) :: rest =>
      rw [genLoop, if_pos (hdeep (cm, depth) (List.mem_cons_self _ _))]
      exact ih rest localV cands fun e he => hdeep e (List.mem_cons_of_mem _ he)

theorem genCellStep_queue_deep (global : List (List Bool)) (cm : Maze) (depth : Nat)
    (jd : Nat) (hjd : jd ≤ depth + 1)
    (acc : List (Maze × Nat) × List (List Bool) × List Maze) (p : Point)
    (hacc : ∀ e ∈ acc.1, jd ≤ e.2) :
    ∀ e ∈ (genCellStep global cm depth acc p).1, jd ≤ e.2 := by
  intro e he
  simp only [genCellStep] at he
  split at he
  · exact hacc e he
  · split at he
    · exact hacc e he
    · rcases List.mem_append.mp he with hmem | hmem
      · exact hacc e hmem
      · rcases List.mem_singleton.mp hmem with rfl
        exact hjd

theorem genCellStep_inv (base : Maze) (global : List (List Bool)) (depth : Nat)
    (hs : base.is_wall_at START_POINT = false)
    (hf : base.is_wall_at (FINISH_POINT base) = false)
    (acc : List (Maze × Nat) × List (List Bool) × List Maze) (p : Point)
    (hinv : GenInv base global acc) :
    GenInv base global (genCellStep global base depth acc p) := by
  obtain ⟨hbase, hc, hpw⟩ := hinv
  simp only [genCellStep]
  split
  · exact ⟨hbase, hc, hpw⟩
  · next hskip =>
    push_neg at hskip
    obtain ⟨hps, hpf, hpwall⟩ := hskip
    split
    · exact ⟨hbase, hc, hpw⟩
    · next hlocal =>
      have hold : ∀ c ∈ acc.2.2,
          c.to_string_representation ∈
            acc.2.1 ++ [(base.set_wall_at p true).to_string_representation] ∧
          c.to_string_representation ∉ global ∧
          c.to_string_representation ≠ base.to_string_representation ∧
          c.W = base.W ∧ c.H = base.H ∧
          c.is_wall_at START_POINT = false ∧
          c.is_wall_at (FINISH_POINT base) = false := by
        intro c hcc
        obtain ⟨h1, h2, h3, h4, h5, h6, h7⟩ := hc c hcc
        exact ⟨List.mem_append_left _ h1, h2, h3, h4, h5, h6, h7⟩
      by_cases hg : (base.set_wall_at p true).to_string_representation ∈ global
      · rw [if_pos hg]
        exact ⟨List.mem_append_left _ hbase, hold, hpw⟩
      · rw [if_neg hg]
        refine ⟨List.mem_append_left _ hbase, ?_, ?_⟩
        · intro c hcc
          rcases List.mem_append.mp hcc with hmem | hmem
          · exact hold c hmem
          · rcases List.mem_singleton.mp hmem with rfl
            refine ⟨List.mem_append_right _ (List.mem_singleton_self _), hg,
              fun he => hlocal (he ▸ hbase), rfl, rfl, ?_, ?_⟩
            · show (if START_POINT = p then true else base.is_wall_at START_POINT) = false
              rw [if_neg fun h => hps h.symm]
              exact hs
            · show (if FINISH_POINT base = p then true
                  else base.is_wall_at (FINISH_POINT base)) = false
              rw [if_neg fun h => hpf h.symm]
              exact hf
        · refine List.pairwise_append.mpr ⟨hpw, List.pairwise_singleton _ _, ?_⟩
          intro a ha b hb
          rcases List.mem_singleton.mp hb with rfl
          exact fun he => hlocal (he ▸ (hc a ha).1)

theorem generate_depth1 (global : List (List Bool)) (base : Maze) :
    generate_unique_candidates global base 1 =
      (genExpand global base 0
        ([], [base.to_string_representation], [])).2.2 := by
  unfold generate_unique_candidates
  obtain ⟨k, hk⟩ : ∃ k, (base.W * base.H + 2) ^ (1 + 1) = k + 1 :=
    ⟨(base.W * base.H + 2) ^ (1 + 1) - 1,
      (Nat.succ_pred_eq_of_pos (by positivity)).symm⟩
  rw [hk, genLoop, if_neg (by omega)]
  apply genLoop_all_deep
  have := foldl_preserve (genCellStep global base 0)
    (fun acc => ∀ e ∈ acc.1, 1 ≤ e.2)
    (fun acc p hacc => genCellStep_queue_deep global base 0 1 (by omega) acc p hacc)
    (allCells base) ([], [base.to_string_representation], []) (by simp)
  exact this

/-- C7 (amended): for every base layout whose start and finish cells are
open, and every global visited set, depth-1 candidate generation never
returns a layout with the base's canonical key, never a layout whose key
is globally visited, never a layout with a wall on the start or finish
cell, and never two layouts with the same canonical key in one call. -/
theorem claim7_candidate_exclusions (global : List (List Bool)) (base : Maze)
    (hs : base.is_wall_at START_POINT = false)
    (hf : base.is_wall_at (FINISH_POINT base) = false) :
    (∀ c ∈ generate_unique_candidates global base 1,
      c.to_string_representation ≠ base.to_string_representation ∧
      c.to_string_representation ∉ global ∧
      c.is_wall_at START_POINT = false ∧ c.is_wall_at (FINISH_POINT c) = false) ∧
    (generate_unique_candidates global base 1).Pairwise
      (fun a b => a.to_string_representation ≠ b.to_string_representation) := by
  have hinv : GenInv base global
      (genExpand global base 0 ([], [base.to_string_representation], [])) := by
    unfold genExpand
    exact foldl_preserve (genCellStep global base 0) (GenInv base global)
      (fun acc p hacc => genCellStep_inv base global 0 hs hf acc p hacc)
      (allCells base) ([], [base.to_string_representation], [])
      ⟨List.mem_singleton_self _, by simp, List.Pairwise.nil⟩
  rw [generate_depth1]
  obtain ⟨hbase, hc, hpw⟩ := hinv
  refine ⟨?_, hpw⟩
  intro c hcc
  obtain ⟨h1, h2, h3, h4, h5, h6, h7⟩ := hc c hcc
  refine ⟨h3, h2, h6, ?_⟩
  have hfin : FINISH_POINT c = FINISH_POINT base := by
    unfold FINISH_POINT
    rw [h4, h5]
  rw [hfin]
  exact h7

/-- C7 counterexample: on the 2x2 base layout whose start cell is already
a wall, depth-1 generation returns two candidates, and every one of them
has a wall on the start cell — the generator only refuses to place new
walls there, it does not reject bases that already violate the property. -/
theorem claim7_counterexample :
    (generate_unique_candidates [] c2maze 1).length = 2 ∧
    (generate_unique_candidates [] c2maze 1).all
      (fun c => c.is_wall_at START_POINT) = true := by
  decide

/-- C7 witness: the amended exclusions at the empty 2x2 base layout with
an empty global visited set. -/
theorem claim7_witness :
    (m22.is_wall_at START_POINT = false ∧
     m22.is_wall_at (FINISH_POINT m22) = false) ∧
    ((∀ c ∈ generate_unique_candidates [] m22 1,
       c.to_string_representation ≠ m22.to_string_representation ∧
       c.to_string_representation ∉ ([] : List (List Bool)) ∧
       c.is_wall_at START_POINT = false ∧ c.is_wall_at (FINISH_POINT c) = false) ∧
     (generate_unique_candidates [] m22 1).Pairwise
       (fun a b => a.to_string_representation ≠ b.to_string_representation)) :=
  ⟨⟨by decide, by decide⟩, claim7_candidate_exclusions [] m22 (by decide) (by decide)⟩

theorem insertAsc_perm (x : Maze × Int) :
    ∀ (l : List (Maze × Int)), (insertAsc x l).Perm (x :: l) := by
  intro l
  induction l with
  | nil => exact List.Perm.refl _
  | cons y ys ih =>
    rw [insertAsc]
    split
    · exact List.Perm.refl _
    · exact List.Perm.trans (List.Perm.cons y ih) (List.Perm.swap x y ys)

theorem sortAsc_perm (l : List (Maze × Int)) : (sortAsc l).Perm l := by
  induction l with
  | nil => exact List.Perm.refl _
  | cons x xs ih =>
    exact List.Perm.trans (insertAsc_perm x (sortAsc xs)) (List.Perm.cons x ih)

theorem insertAsc_headOpt (x : Maze × Int) (l : List (Maze × Int)) :
    (insertAsc x l).head? = some x ∨ (insertAsc x l).head? = l.head? := by
  match l with
  | [] => exact Or.inl rfl
  | y :: ys =>
    rw [insertAsc]
    split
    · exact Or.inl rfl
    · exact Or.inr rfl

theorem insertAsc_sorted (x : Maze × Int) :
    ∀ (l : List (Maze × Int)), List.Chain' (fun a b => a.2 ≤ b.2) l →
    List.Chain' (fun a b => a.2 ≤ b.2) (insertAsc x l) := by
  intro l
  induction l with
  | nil => intro _; simp [insertAsc]
  | cons y ys ih =>
    intro hch
    obtain ⟨hhead, htail⟩ := List.chain'_cons'.mp hch
    rw [insertAsc]
    split
    · next hlt => exact List.chain'_cons'.mpr ⟨fun h hh => by
        rw [List.head?_cons, Option.mem_def, Option.some_inj] at hh
        rw [← hh]
        exact le_of_lt hlt, hch⟩
    · next hnlt =>
      refine List.chain'_cons'.mpr ⟨?_, ih htail⟩
      intro h hh
      rcases insertAsc_headOpt x ys with he | he
      · rw [he, Option.mem_def, Option.some_inj] at hh
        rw [← hh]
        exact le_of_not_lt hnlt
      · rw [he] at hh
        exact hhead h hh

theorem sortAsc_sorted (l : List (Maze × Int)) :
    List.Chain' (fun a b => a.2 ≤ b.2) (sortAsc l) := by
  induction l with
  | nil => simp [sortAsc]
  | cons x xs ih => exact insertAsc_sorted x (sortAsc xs) ih

theorem chain'_le_getLast :
    ∀ (l : List (Maze × Int)), List.Chain' (fun a b => a.2 ≤ b.2) l →
    ∀ (h : l ≠ []) (x : Maze × Int), x ∈ l → x.2 ≤ (l.getLast h).2 := by
  intro l
  induction l with
  | nil => intro _ h; exact absurd rfl h
  | cons a t ih =>
    intro hch h x hx
    match t with
    | [] =>
      rcases List.mem_singleton.mp hx with rfl
      exact le_refl _
    | b :: t2 =>
      obtain ⟨hab, htail⟩ := List.chain'_cons.mp hch
      rw [List.getLast_cons (by simp)]
      rcases List.mem_cons.mp hx with rfl | hx2
      · exact le_trans hab
          (ih htail (by simp) b (List.mem_cons_self _ _))
      · exact ih htail (by simp) x hx2

theorem record_if_improved_parts (ctx : SharedCtx) (m : Maze) (s : Int) :
    (record_if_improved ctx m s).globally_visited = ctx.globally_visited ∧
    (record_if_improved ctx m s).score_cache = ctx.score_cache ∧
    (record_if_improved ctx m s).simRuns = ctx.simRuns := by
  unfold record_if_improved notify_new_record
  split <;> exact ⟨rfl, rfl, rfl⟩

theorem pushImpStep_parts (g : GreedyCtx) (s : Maze × Int) :
    (pushImpStep g s).stack = s :: g.stack ∧
    (pushImpStep g s).shared.globally_visited =
      g.shared.globally_visited ++ [s.1.to_string_representation] ∧
    (pushImpStep g s).genLog = g.genLog := by
  obtain ⟨h1, _, _⟩ := record_if_improved_parts g.shared s.1 s.2
  exact ⟨rfl, by simp only [pushImpStep, h1], rfl⟩

theorem push_improvements_parts :
    ∀ (l : List (Maze × Int)) (g : GreedyCtx),
    (push_improvements g l).stack = l.reverse ++ g.stack ∧
    (push_improvements g l).shared.globally_visited =
      g.shared.globally_visited ++ l.map (fun s => s.1.to_string_representation) ∧
    (push_improvements g l).genLog = g.genLog := by
  intro l
  induction l with
  | nil => intro g; exact ⟨by simp [push_improvements], by simp [push_improvements], rfl⟩
  | cons s ss ih =>
    intro g
    have hrw : push_improvements g (s :: ss) = push_improvements (pushImpStep g s) ss :=
      rfl
    obtain ⟨hp1, hp2, hp3⟩ := pushImpStep_parts g s
    obtain ⟨h1, h2, h3⟩ := ih (pushImpStep g s)
    rw [hrw]
    refine ⟨?_, ?_, by rw [h3, hp3]⟩
    · rw [h1, hp1]
      simp
    · rw [h2, hp2]
      simp

theorem find_and_push_eq_nil (g : GreedyCtx) (st : Maze × Int) (d : Nat)
    (hcands : generate_unique_candidates g.shared.globally_visited st.1 d = []) :
    find_and_push_potential_next_states g st d =
      (false, { g with genLog := g.genLog ++ [d] }) := by
  unfold find_and_push_potential_next_states
  rw [hcands]

theorem find_and_push_eq_cons (g : GreedyCtx) (st : Maze × Int) (d : Nat)
    (c : Maze) (cs : List Maze)
    (hcands : generate_unique_candidates g.shared.globally_visited st.1 d = c :: cs) :
    find_and_push_potential_next_states g st d =
      evaluate_and_process_candidates { g with genLog := g.genLog ++ [d] }
        (c :: cs) st.2 := by
  unfold find_and_push_potential_next_states
  rw [hcands]

theorem evaluate_eq_nil (g : GreedyCtx) (cands : List Maze) (th : Int)
    (sh2 : SharedCtx)
    (hscore : score_candidates g.shared cands th = ([], sh2)) :
    evaluate_and_process_candidates g cands th = (false, { g with shared := sh2 }) := by
  unfold evaluate_and_process_candidates
  rw [hscore]

theorem evaluate_eq_cons (g : GreedyCtx) (cands : List Maze) (th : Int)
    (t : Maze × Int) (ts : List (Maze × Int)) (sh2 : SharedCtx)
    (hscore : score_candidates g.shared cands th = (t :: ts, sh2)) :
    evaluate_and_process_candidates g cands th =
      (true, push_improvements { g with shared := sh2 } (sortAsc (t :: ts))) := by
  unfold evaluate_and_process_candidates
  rw [hscore]

theorem greedyStep_eq (D : Nat) (g : GreedyCtx) (st : Maze × Int)
    (rest : List (Maze × Int)) (hstack : g.stack = st :: rest) :
    greedyStep D g =
      (let pr := find_and_push_potential_next_states { g with stack := rest } st 1;
       if pr.1 = false ∧ 1 < D then (find_and_push_potential_next_states pr.2 st D).2
       else pr.2) := by
  unfold greedyStep
  rw [hstack]

theorem find_and_push_genLog (g : GreedyCtx) (st : Maze × Int) (d : Nat) :
    (find_and_push_potential_next_states g st d).2.genLog = g.genLog ++ [d] := by
  cases hcands : generate_unique_candidates g.shared.globally_visited st.1 d with
  | nil => rw [find_and_push_eq_nil g st d hcands]
  | cons c cs =>
    rw [find_and_push_eq_cons g st d c cs hcands]
    cases hsc : score_candidates ({ g with genLog := g.genLog ++ [d] } : GreedyCtx).shared
        (c :: cs) st.2 with
    | mk imps sh2 =>
      match imps, hsc with
      | [], hsc => rw [evaluate_eq_nil _ _ _ sh2 hsc]
      | t :: ts, hsc =>
        rw [evaluate_eq_cons _ _ _ t ts sh2 hsc]
        show (push_improvements _ (sortAsc (t :: ts))).genLog = _
        rw [(push_improvements_parts (sortAsc (t :: ts)) _).2.2]

/-- C8: in a greedy step popping a state with score-threshold st.2, if the
set of improving depth-1 candidates is non-empty, they are sorted
ascending by score and pushed in that order, so the stack after the step
is the reversed sorted list on top of the remaining stack, its top is an
improving candidate of maximal score (popped next), every pushed
candidate's canonical key is in the global visited set, and the generator
was invoked at depth 1 only; if no improving depth-1 candidate exists,
generation at depth D from the same popped layout happens exactly when
D is greater than 1. -/
theorem claim8_greedy_step (D : Nat) (g : GreedyCtx) (st : Maze × Int)
    (rest : List (Maze × Int)) (hstack : g.stack = st :: rest)
    (imps : List (Maze × Int)) (sh2 : SharedCtx)
    (hscore : score_candidates g.shared
        (generate_unique_candidates g.shared.globally_visited st.1 1) st.2 =
        (imps, sh2)) :
    (∀ t ts, imps = t :: ts →
      (greedyStep D g).stack = (sortAsc imps).reverse ++ rest ∧
      List.Chain' (fun a b => a.2 ≤ b.2) (sortAsc imps) ∧
      (sortAsc imps).Perm imps ∧
      (∃ top rest2, (greedyStep D g).stack = top :: rest2 ∧ top ∈ imps ∧
        ∀ q ∈ imps, q.2 ≤ top.2) ∧
      (∀ q ∈ imps, q.1.to_string_representation ∈
        (greedyStep D g).shared.globally_visited) ∧
      (greedyStep D g).genLog = g.genLog ++ [1]) ∧
    (imps = [] → 1 < D → (greedyStep D g).genLog = g.genLog ++ [1, D]) ∧
    (imps = [] → D ≤ 1 → (greedyStep D g).genLog = g.genLog ++ [1]) := by
  have hgs := greedyStep_eq D g st rest hstack
  refine ⟨?_, ?_, ?_⟩
  · intro t ts himps
    subst himps
    cases hcands : generate_unique_candidates g.shared.globally_visited st.1 1 with
    | nil =>
      exfalso
      rw [hcands] at hscore
      have : (([], g.shared) : List (Maze × Int) × SharedCtx) = (t :: ts, sh2) := hscore
      simp at this
    | cons c cs =>
      have hfp : find_and_push_potential_next_states { g with stack := rest } st 1 =
          (true, push_improvements
            { g with stack := rest, genLog := g.genLog ++ [1], shared := sh2 }
            (sortAsc (t :: ts))) := by
        rw [find_and_push_eq_cons { g with stack := rest } st 1 c cs hcands]
        rw [hcands] at hscore
        rw [evaluate_eq_cons { g with stack := rest, genLog := g.genLog ++ [1] }
          (c :: cs) st.2 t ts sh2 hscore]
      have hstep : greedyStep D g = push_improvements
          { g with stack := rest, genLog := g.genLog ++ [1], shared := sh2 }
          (sortAsc (t :: ts)) := by
        rw [hgs]
        show (if (find_and_push_potential_next_states { g with stack := rest } st 1).1
              = false ∧ 1 < D
            then (find_and_push_potential_next_states
              (find_and_push_potential_next_states { g with stack := rest } st 1).2
                st D).2
            else (find_and_push_potential_next_states { g with stack := rest } st 1).2)
          = _
        rw [hfp]
        simp
      obtain ⟨hs1, hs2, hs3⟩ := push_improvements_parts (sortAsc (t :: ts))
        { g with stack := rest, genLog := g.genLog ++ [1], shared := sh2 }
      have hne : sortAsc (t :: ts) ≠ [] := by
        have hlen := (sortAsc_perm (t :: ts)).length_eq
        intro he
        rw [he] at hlen
        simp at hlen
      refine ⟨by rw [hstep]; exact hs1, sortAsc_sorted _, sortAsc_perm _, ?_, ?_, ?_⟩
      · obtain ⟨top, rest2, hrev⟩ : ∃ top rest2,
            (sortAsc (t :: ts)).reverse = top :: rest2 := by
          cases hr : (sortAsc (t :: ts)).reverse with
          | nil => exact absurd (List.reverse_eq_nil_iff.mp hr) hne
          | cons a b => exact ⟨a, b, rfl⟩
        have htop : top = (sortAsc (t :: ts)).getLast hne := by
          have h1 : (sortAsc (t :: ts)).reverse.head? = some top := by rw [hrev]; rfl
          rw [List.head?_reverse, List.getLast?_eq_getLast _ hne] at h1
          exact (Option.some_inj.mp h1).symm
        refine ⟨top, rest2 ++ rest, ?_, ?_, ?_⟩
        · rw [hstep, hs1, hrev]
          simp
        · rw [htop]
          exact (sortAsc_perm (t :: ts)).subset (List.getLast_mem hne)
        · intro q hq
          rw [htop]
          exact chain'_le_getLast _ (sortAsc_sorted _) hne q
            ((sortAsc_perm (t :: ts)).symm.subset hq)
      · intro q hq
        rw [hstep, hs2]
        exact List.mem_append_right _
          (List.mem_map_of_mem _ ((sortAsc_perm (t :: ts)).symm.subset hq))
      · rw [hstep, hs3]
  · intro himps h1D
    subst himps
    cases hcands : generate_unique_candidates g.shared.globally_visited st.1 1 with
    | nil =>
      have hfp := find_and_push_eq_nil { g with stack := rest } st 1 hcands
      have hstep : greedyStep D g = (find_and_push_potential_next_states
          { g with stack := rest, genLog := g.genLog ++ [1] } st D).2 := by
        rw [hgs]
        show (if (find_and_push_potential_next_states { g with stack := rest } st 1).1
              = false ∧ 1 < D
            then (find_and_push_potential_next_states
              (find_and_push_potential_next_states { g with stack := rest } st 1).2
                st D).2
            else (find_and_push_potential_next_states { g with stack := rest } st 1).2)
          = _
        rw [hfp]
        simp [h1D]
      rw [hstep, find_and_push_genLog]
      simp
    | cons c cs =>
      have hfp : find_and_push_potential_next_states { g with stack := rest } st 1 =
          (false, { g with stack := rest, genLog := g.genLog ++ [1], shared := sh2 }) := by
        rw [find_and_push_eq_cons { g with stack := rest } st 1 c cs hcands]
        rw [hcands] at hscore
        rw [evaluate_eq_nil { g with stack := rest, genLog := g.genLog ++ [1] }
          (c :: cs) st.2 sh2 hscore]
      have hstep : greedyStep D g = (find_and_push_potential_next_states
          { g with stack := rest, genLog := g.genLog ++ [1], shared := sh2 } st D).2 := by
        rw [hgs]
        show (if (find_and_push_potential_next_states { g with stack := rest } st 1).1
              = false ∧ 1 < D
            then (find_and_push_potential_next_states
              (find_and_push_potential_next_states { g with stack := rest } st 1).2
                st D).2
            else (find_and_push_potential_next_states { g with stack := rest } st 1).2)
          = _
        rw [hfp]
        simp [h1D]
      rw [hstep, find_and_push_genLog]
      simp
  · intro himps hD
    subst himps
    have hcond : ¬ (1 : Nat) < D := by omega
    cases hcands : generate_unique_candidates g.shared.globally_visited st.1 1 with
    | nil =>
      have hfp := find_and_push_eq_nil { g with stack := rest } st 1 hcands
      have hstep : greedyStep D g =
          ({ g with stack := rest, genLog := g.genLog ++ [1] } : GreedyCtx) := by
        rw [hgs]
        show (if (find_and_push_potential_next_states { g with stack := rest } st 1).1
              = false ∧ 1 < D
            then (find_and_push_potential_next_states
              (find_and_push_potential_next_states { g with stack := rest } st 1).2
                st D).2
            else (find_and_push_potential_next_states { g with stack := rest } st 1).2)
          = _
        rw [hfp]
        simp [hcond]
      rw [hstep]
    | cons c cs =>
      have hfp : find_and_push_potential_next_states { g with stack := rest } st 1 =
          (false, { g with stack := rest, genLog := g.genLog ++ [1], shared := sh2 }) := by
        rw [find_and_push_eq_cons { g with stack := rest } st 1 c cs hcands]
        rw [hcands] at hscore
        rw [evaluate_eq_nil { g with stack := rest, genLog := g.genLog ++ [1] }
          (c :: cs) st.2 sh2 hscore]
      have hstep : greedyStep D g =
          ({ g with stack := rest, genLog := g.genLog ++ [1], shared := sh2 } :
            GreedyCtx) := by
        rw [hgs]
        show (if (find_and_push_potential_next_states { g with stack := rest } st 1).1
              = false ∧ 1 < D
            then (find_and_push_potential_next_states
              (find_and_push_potential_next_states { g with stack := rest } st 1).2
                st D).2
            else (find_and_push_potential_next_states { g with stack := rest } st 1).2)
          = _
        rw [hfp]
        simp [hcond]
      rw [hstep]

/-- C8 witness: from the greedy solver's seeded context on a 2x2 grid (no
depth-1 candidate improves on the empty layout's score), the step with
configured deep-jump depth 2 logs generation at depth 1 followed by a
deep-jump generation at depth 2. -/
theorem claim8_witness :
    ((greedyInit 2 2).stack =
        (emptyMaze 2 2, (initialCtx 2 2).highest_known) :: [] ∧
     (score_candidates (greedyInit 2 2).shared
        (generate_unique_candidates (greedyInit 2 2).shared.globally_visited
          (emptyMaze 2 2) 1) (initialCtx 2 2).highest_known).1 = [] ∧
     (1 : Nat) < 2) ∧
    (greedyStep 2 (greedyInit 2 2)).genLog = (greedyInit 2 2).genLog ++ [1, 2] :=
  ⟨⟨rfl, rfl, by decide⟩,
   (claim8_greedy_step 2 (greedyInit 2 2)
      (emptyMaze 2 2, (initialCtx 2 2).highest_known) [] rfl
      (score_candidates (greedyInit 2 2).shared
        (generate_unique_candidates (greedyInit 2 2).shared.globally_visited
          (emptyMaze 2 2) 1) (initialCtx 2 2).highest_known).1
      (score_candidates (greedyInit 2 2).shared
        (generate_unique_candidates (greedyInit 2 2).shared.globally_visited
          (emptyMaze 2 2) 1) (initialCtx 2 2).highest_known).2
      rfl).2.1 rfl (by decide)⟩

theorem recInv_record_if_improved (sh : SharedCtx) (m : Maze) (s : Int)
    (h : RecInv sh) : RecInv (record_if_improved sh m s) := by
  obtain ⟨h1, h2⟩ := h
  unfold record_if_improved notify_new_record
  split
  · next hlt =>
    constructor
    · rw [List.map_append]
      refine List.chain'_append.mpr ⟨h1, by simp, ?_⟩
      intro x hx y hy
      rw [List.getLast?_map] at hx
      rw [h2] at hx
      rcases Option.mem_some_iff.mp hx with rfl
      simp only [List.map_cons, List.map_nil, List.head?_cons,
        Option.mem_def, Option.some_inj] at hy
      rw [← hy]
      exact hlt
    · rw [List.getLast?_concat]
      rfl
  · exact ⟨h1, h2⟩

theorem get_score_records (ctx : SharedCtx) (m : Maze) :
    (get_score_for_maze ctx m).2.records = ctx.records ∧
    (get_score_for_maze ctx m).2.highest_known = ctx.highest_known := by
  simp only [get_score_for_maze]
  cases cacheFind ctx.score_cache m.to_string_representation <;> exact ⟨rfl, rfl⟩

theorem recInv_get_score (ctx : SharedCtx) (m : Maze) (h : RecInv ctx) :
    RecInv (get_score_for_maze ctx m).2 := by
  obtain ⟨h1, h2⟩ := get_score_records ctx m
  unfold RecInv at h ⊢
  rw [h1, h2]
  exact h

theorem recInv_score_candidates (ctx : SharedCtx) (cands : List Maze) (th : Int)
    (h : RecInv ctx) : RecInv (score_candidates ctx cands th).2 := by
  unfold score_candidates
  refine foldl_preserve
    (fun acc c =>
      let p := get_score_for_maze acc.2 c
      if th < p.1 then (acc.1 ++ [(c, p.1)], p.2) else (acc.1, p.2))
    (fun acc => RecInv acc.2) ?_ cands ([], ctx) h
  intro b a hb
  dsimp only
  split
  · exact recInv_get_score b.2 a hb
  · exact recInv_get_score b.2 a hb

theorem recInv_pushImpStep (g : GreedyCtx) (s : Maze × Int) (h : RecInv g.shared) :
    RecInv (pushImpStep g s).shared :=
  recInv_record_if_improved g.shared s.1 s.2 h

theorem recInv_push_improvements (l : List (Maze × Int)) (g : GreedyCtx)
    (h : RecInv g.shared) : RecInv (push_improvements g l).shared :=
  foldl_preserve pushImpStep (fun g => RecInv g.shared)
    (fun b a hb => recInv_pushImpStep b a hb) l g h

theorem recInv_evaluate (g : GreedyCtx) (cands : List Maze) (th : Int)
    (h : RecInv g.shared) :
    RecInv (evaluate_and_process_candidates g cands th).2.shared := by
  cases hsc : score_candidates g.shared cands th with
  | mk imps sh2 =>
    have hsh2 : RecInv sh2 := by
      have := recInv_score_candidates g.shared cands th h
      rw [hsc] at this
      exact this
    match imps, hsc with
    | [], hsc =>
      rw [evaluate_eq_nil g cands th sh2 hsc]
      exact hsh2
    | t :: ts, hsc =>
      rw [evaluate_eq_cons g cands th t ts sh2 hsc]
      exact recInv_push_improvements _ _ hsh2

theorem recInv_find_and_push (g : GreedyCtx) (st : Maze × Int) (d : Nat)
    (h : RecInv g.shared) :
    RecInv (find_and_push_potential_next_states g st d).2.shared := by
  cases hcands : generate_unique_candidates g.shared.globally_visited st.1 d with
  | nil =>
    rw [find_and_push_eq_nil g st d hcands]
    exact h
  | cons c cs =>
    rw [find_and_push_eq_cons g st d c cs hcands]
    exact recInv_evaluate _ _ _ h

theorem recInv_greedyStep (D : Nat) (g : GreedyCtx) (h : RecInv g.shared) :
    RecInv (greedyStep D g).shared := by
  cases hstack : g.stack with
  | nil =>
    unfold greedyStep
    rw [hstack]
    exact h
  | cons st rest =>
    rw [greedyStep_eq D g st rest hstack]
    show RecInv (if _ ∧ _ then _ else _ : GreedyCtx).shared
    split
    · exact recInv_find_and_push _ st D (recInv_find_and_push _ st 1 h)
    · exact recInv_find_and_push _ st 1 h

theorem recInv_greedyRun (D : Nat) :
    ∀ (fuel : Nat) (g : GreedyCtx), RecInv g.shared →
    RecInv (greedyRun D fuel g).shared := by
  intro fuel
  induction fuel with
  | zero => intro g h; exact h
  | succ fuel ih =>
    intro g h
    unfold greedyRun
    cases g.stack with
    | nil => exact h
    | cons st rest => exact ih (greedyStep D g) (recInv_greedyStep D g h)

theorem recInv_bestAdmitStep (base : Maze) (b : BestCtx) (p : Point)
    (h : RecInv b.shared) : RecInv (bestAdmitStep base b p).shared := by
  simp only [bestAdmitStep]
  split
  · exact h
  · exact recInv_record_if_improved _ _ _ (recInv_get_score _ _ h)

theorem recInv_bestAdmit (cells : List Point) (base : Maze) (b : BestCtx)
    (h : RecInv b.shared) : RecInv (bestAdmit b cells base).shared :=
  foldl_preserve (bestAdmitStep base) (fun b => RecInv b.shared)
    (fun x a hx => recInv_bestAdmitStep base x a hx) cells b h

theorem recInv_bestFirstStep (order : List Point → List Point) (b : BestCtx)
    (h : RecInv b.shared) : RecInv (bestFirstStep order b).shared := by
  unfold bestFirstStep
  cases popMax b.pq with
  | none => exact h
  | some pr =>
    cases pr with
    | mk st rest => exact recInv_bestAdmit _ _ _ h

theorem recInv_bestFirstRun (order : Nat → List Point → List Point) :
    ∀ (fuel idx : Nat) (b : BestCtx), RecInv b.shared →
    RecInv (bestFirstRun order fuel idx b).shared := by
  intro fuel
  induction fuel with
  | zero => intro idx b h; exact h
  | succ fuel ih =>
    intro idx b h
    unfold bestFirstRun
    cases popMax b.pq with
    | none => exact h
    | some pr => exact ih (idx + 1) _ (recInv_bestFirstStep (order idx) b h)

theorem recInv_initialCtx (W H : Nat) : RecInv (initialCtx W H) := by
  obtain ⟨h1, _⟩ := get_score_records emptyCtx (emptyMaze W H)
  have hrec : (initialCtx W H).records =
      [(emptyMaze W H, (get_score_for_maze emptyCtx (emptyMaze W H)).1)] := by
    show (get_score_for_maze emptyCtx (emptyMaze W H)).2.records ++
        [(emptyMaze W H, (get_score_for_maze emptyCtx (emptyMaze W H)).1)] = _
    rw [h1]
    rfl
  have hhi : (initialCtx W H).highest_known =
      (get_score_for_maze emptyCtx (emptyMaze W H)).1 := rfl
  unfold RecInv
  rw [hrec, hhi]
  exact ⟨by simp, by simp⟩

/-- C5: across any run of the greedy solver and any run of the best-first
solver (any fuel, any candidate ordering), the sequence of scores passed
to the record sink is strictly increasing, and the last emitted score is
always exactly the run's best-known score — records arise only from the
shared strict-improvement update rule (plus the constructor's seed
record, which starts the increasing sequence). -/
theorem claim5_record_monotonic (W H D fuel : Nat)
    (order : Nat → List Point → List Point) :
    (List.Chain' (· < ·)
       (((greedyRun D fuel (greedyInit W H)).shared.records).map (fun r => r.2)) ∧
     ((greedyRun D fuel (greedyInit W H)).shared.records).getLast?.map
         (fun r => r.2) =
       some (greedyRun D fuel (greedyInit W H)).shared.highest_known) ∧
    (List.Chain' (· < ·)
       (((bestFirstRun order fuel 0 (bestInit W H)).shared.records).map
         (fun r => r.2)) ∧
     ((bestFirstRun order fuel 0 (bestInit W H)).shared.records).getLast?.map
         (fun r => r.2) =
       some (bestFirstRun order fuel 0 (bestInit W H)).shared.highest_known) :=
  ⟨recInv_greedyRun D fuel (greedyInit W H) (recInv_initialCtx W H),
   recInv_bestFirstRun order fuel 0 (bestInit W H) (recInv_initialCtx W H)⟩

theorem flatMap_range_length {α : Type} (g : Nat → List α) (W : Nat)
    (hg : ∀ n, (g n).length = W) :
    ∀ H, ((List.range H).flatMap g).length = H * W := by
  intro H
  induction H with
  | zero => simp
  | succ H ih =>
    rw [List.range_succ, List.flatMap_append, List.length_append, ih]
    have h1 : ([H].flatMap g).length = W := by simp [hg]
    rw [h1]
    ring

theorem flatMap_range_getElem {α : Type} (g : Nat → List α) (W : Nat)
    (hg : ∀ n, (g n).length = W) :
    ∀ (H y x : Nat), y < H → x < W →
    ((List.range H).flatMap g)[y * W + x]? = (g y)[x]? := by
  intro H
  induction H with
  | zero => intro y x hy hx; exact absurd hy (Nat.not_lt_zero y)
  | succ H ih =>
    intro y x hy hx
    rw [List.range_succ, List.flatMap_append]
    by_cases hyH : y < H
    · rw [List.getElem?_append_left]
      · exact ih y x hyH hx
      · rw [flatMap_range_length g W hg H]
        have h1 : (y + 1) * W ≤ H * W := Nat.mul_le_mul_right W hyH
        have h2 : (y + 1) * W = y * W + W := by ring
        omega
    · have hyH2 : y = H := by omega
      subst hyH2
      rw [List.getElem?_append_right]
      · rw [flatMap_range_length g W hg y]
        have h3 : y * W + x - y * W = x := by omega
        rw [h3]
        simp
      · rw [flatMap_range_length g W hg y]
        omega

theorem key_getElem (m : Maze) (x y : Nat) (hx : x < m.W) (hy : y < m.H) :
    m.to_string_representation[y * m.W + x]? =
      some (m.is_wall_at ⟨(x : Int), (y : Int)⟩) := by
  unfold Maze.to_string_representation
  rw [flatMap_range_getElem
    (fun (y : Nat) => (List.range m.W).map
      fun (x : Nat) => m.is_wall_at ⟨(x : Int), (y : Int)⟩)
    m.W (fun n => by simp) m.H y x hy hx]
  rw [List.getElem?_map, List.getElem?_range hx]
  rfl

theorem set_wall_at_is_wall (m : Maze) (p q : Point) (b : Bool) :
    (m.set_wall_at p b).is_wall_at q = if q = p then b else m.is_wall_at q := rfl

theorem set_wall_key_ne (base : Maze) (px py qx qy : Nat)
    (hpx : px < base.W) (hpy : py < base.H) (hqx : qx < base.W) (hqy : qy < base.H)
    (hne : (⟨(px : Int), (py : Int)⟩ : Point) ≠ ⟨(qx : Int), (qy : Int)⟩)
    (hqw : base.is_wall_at ⟨(qx : Int), (qy : Int)⟩ = false) :
    (base.set_wall_at ⟨(px : Int), (py : Int)⟩ true).to_string_representation ≠
    (base.set_wall_at ⟨(qx : Int), (qy : Int)⟩ true).to_string_representation := by
  intro he
  have h1 := congrArg (fun l => l[qy * base.W + qx]?) he
  simp only at h1
  have e1 : (base.set_wall_at ⟨(px : Int), (py : Int)⟩
        true).to_string_representation[qy * base.W + qx]? =
      some ((base.set_wall_at ⟨(px : Int), (py : Int)⟩ true).is_wall_at
        ⟨(qx : Int), (qy : Int)⟩) :=
    key_getElem (base.set_wall_at ⟨(px : Int), (py : Int)⟩ true) qx qy hqx hqy
  have e2 : (base.set_wall_at ⟨(qx : Int), (qy : Int)⟩
        true).to_string_representation[qy * base.W + qx]? =
      some ((base.set_wall_at ⟨(qx : Int), (qy : Int)⟩ true).is_wall_at
        ⟨(qx : Int), (qy : Int)⟩) :=
    key_getElem (base.set_wall_at ⟨(qx : Int), (qy : Int)⟩ true) qx qy hqx hqy
  rw [e1, e2] at h1
  have h2 := Option.some_inj.mp h1
  rw [set_wall_at_is_wall, set_wall_at_is_wall] at h2
  rw [if_neg (fun h => hne h.symm), if_pos rfl, hqw] at h2
  cases h2

theorem mem_allCells (m : Maze) (p : Point) :
    p ∈ allCells m ↔ ∃ x y : Nat, x < m.W ∧ y < m.H ∧ p = ⟨(x : Int), (y : Int)⟩ := by
  unfold allCells
  simp only [List.mem_flatMap, List.mem_map, List.mem_range]
  constructor
  · rintro ⟨y, hy, x, hx, rfl⟩
    exact ⟨x, y, hx, hy, rfl⟩
  · rintro ⟨x, y, hx, hy, rfl⟩
    exact ⟨y, hy, x, hx, rfl⟩

theorem allCells_nodup (m : Maze) : (allCells m).Nodup := by
  unfold allCells
  rw [List.nodup_flatMap]
  constructor
  · intro y hy
    refine List.Nodup.map ?_ (List.nodup_range _)
    intro a b hab
    have h1 := congrArg Point.coordinate_x hab
    simpa using h1
  · refine List.Pairwise.imp ?_ (List.nodup_range _)
    intro y y2 hyy pt hpt hpt2
    simp only [List.mem_map, List.mem_range] at hpt hpt2
    obtain ⟨x, hx, rfl⟩ := hpt
    obtain ⟨x2, hx2, heq⟩ := hpt2
    have h1 := congrArg Point.coordinate_y heq
    simp at h1
    exact hyy h1.symm

theorem mem_placeable (m : Maze) (p : Point) (hp : p ∈ placeable_cells m) :
    p ∈ allCells m ∧ p ≠ START_POINT ∧ p ≠ FINISH_POINT m ∧
    m.is_wall_at p = false := by
  unfold placeable_cells at hp
  rw [List.mem_filter] at hp
  obtain ⟨h1, h2⟩ := hp
  simp only [decide_eq_true_eq] at h2
  push_neg at h2
  refine ⟨h1, h2.1, h2.2.1, ?_⟩
  cases hw : m.is_wall_at p with
  | false => rfl
  | true => exact absurd hw h2.2.2

theorem placeable_keys_pairwise (base : Maze) :
    List.Pairwise (fun p q =>
      (base.set_wall_at p true).to_string_representation ≠
      (base.set_wall_at q true).to_string_representation) (placeable_cells base) := by
  have hnd : (placeable_cells base).Nodup :=
    List.Nodup.filter _ (allCells_nodup base)
  refine List.Pairwise.imp_of_mem ?_ hnd
  intro p q hp hq hpq
  obtain ⟨hpa, _, _, _⟩ := mem_placeable base p hp
  obtain ⟨hqa, _, _, hqw⟩ := mem_placeable base q hq
  obtain ⟨px, py, hpx, hpy, rfl⟩ := (mem_allCells base p).mp hpa
  obtain ⟨qx, qy, hqx, hqy, rfl⟩ := (mem_allCells base q).mp hqa
  exact set_wall_key_ne base px py qx qy hpx hpy hqx hqy hpq hqw

theorem get_score_parts (ctx : SharedCtx) (m : Maze) :
    (get_score_for_maze ctx m).1 = scoreOf ctx m ∧
    (get_score_for_maze ctx m).2.globally_visited = ctx.globally_visited ∧
    ((get_score_for_maze ctx m).2.score_cache = ctx.score_cache ∨
     (get_score_for_maze ctx m).2.score_cache =
       (m.to_string_representation, scoreOf ctx m) :: ctx.score_cache) := by
  simp only [get_score_for_maze, scoreOf]
  cases cacheFind ctx.score_cache m.to_string_representation with
  | none => exact ⟨rfl, rfl, Or.inr rfl⟩
  | some s => exact ⟨rfl, rfl, Or.inl rfl⟩

theorem cacheFind_cons_ne (cache : List (List Bool × Int)) (k : List Bool) (v : Int)
    (key : List Bool) (h : key ≠ k) :
    cacheFind ((k, v) :: cache) key = cacheFind cache key := by
  show (if key = k then some v else cacheFind cache key) = cacheFind cache key
  rw [if_neg h]

theorem bestAdmitStep_visited (base : Maze) (b : BestCtx) (p : Point)
    (hv : (base.set_wall_at p true).to_string_representation ∈
      b.shared.globally_visited) :
    bestAdmitStep base b p = b := by
  simp only [bestAdmitStep]
  rw [if_pos hv]

theorem bestAdmitStep_parts (base : Maze) (b : BestCtx) (p : Point)
    (hv : (base.set_wall_at p true).to_string_representation ∉
      b.shared.globally_visited) :
    (bestAdmitStep base b p).shared.globally_visited =
      b.shared.globally_visited ++
        [(base.set_wall_at p true).to_string_representation] ∧
    (bestAdmitStep base b p).pq =
      (base.set_wall_at p true, scoreOf b.shared (base.set_wall_at p true)) ::
        b.pq ∧
    ((bestAdmitStep base b p).shared.score_cache = b.shared.score_cache ∨
     (bestAdmitStep base b p).shared.score_cache =
       ((base.set_wall_at p true).to_string_representation,
         scoreOf b.shared (base.set_wall_at p true)) :: b.shared.score_cache) := by
  obtain ⟨hg1, hg2, hg3⟩ := get_score_parts b.shared (base.set_wall_at p true)
  obtain ⟨hr1, hr2, _⟩ := record_if_improved_parts
    (get_score_for_maze b.shared (base.set_wall_at p true)).2
    (base.set_wall_at p true)
    (get_score_for_maze b.shared (base.set_wall_at p true)).1
  have heq : bestAdmitStep base b p =
      { shared := { record_if_improved
            (get_score_for_maze b.shared (base.set_wall_at p true)).2
            (base.set_wall_at p true)
            (get_score_for_maze b.shared (base.set_wall_at p true)).1 with
          globally_visited := (record_if_improved
            (get_score_for_maze b.shared (base.set_wall_at p true)).2
            (base.set_wall_at p true)
            (get_score_for_maze b.shared (base.set_wall_at p true)).1).globally_visited
            ++ [(base.set_wall_at p true).to_string_representation] },
        pq := (base.set_wall_at p true,
          (get_score_for_maze b.shared (base.set_wall_at p true)).1) :: b.pq } := by
    simp only [bestAdmitStep]
    rw [if_neg hv]
  rw [heq]
  refine ⟨?_, ?_, ?_⟩
  · show (record_if_improved _ _ _).globally_visited ++ _ = _
    rw [hr1, hg2]
  · show ((base.set_wall_at p true),
      (get_score_for_maze b.shared (base.set_wall_at p true)).1) :: b.pq = _
    rw [hg1]
  · show (record_if_improved _ _ _).score_cache = _ ∨
      (record_if_improved _ _ _).score_cache = _
    rw [hr2]
    exact hg3

theorem bestAdmit_spec (base : Maze) :
    ∀ (cells : List Point) (b : BestCtx),
    List.Pairwise (fun p q =>
      (base.set_wall_at p true).to_string_representation ≠
      (base.set_wall_at q true).to_string_representation) cells →
    (bestAdmit b cells base).shared.globally_visited =
      b.shared.globally_visited ++
        (admittedCells b.shared.globally_visited base cells).map
          (fun p => (base.set_wall_at p true).to_string_representation) ∧
    (bestAdmit b cells base).pq =
      ((admittedCells b.shared.globally_visited base cells).map
        (fun p => (base.set_wall_at p true,
          scoreOf b.shared (base.set_wall_at p true)))).reverse ++ b.pq := by
  intro cells
  induction cells with
  | nil =>
    intro b _
    exact ⟨by simp [bestAdmit, admittedCells], by simp [bestAdmit, admittedCells]⟩
  | cons p ps ih =>
    intro b hpw
    obtain ⟨hhead, htail⟩ := List.pairwise_cons.mp hpw
    have hfold : bestAdmit b (p :: ps) base = bestAdmit (bestAdmitStep base b p) ps base :=
      rfl
    by_cases hv : (base.set_wall_at p true).to_string_representation ∈
        b.shared.globally_visited
    · have hadm : admittedCells b.shared.globally_visited base (p :: ps) =
          admittedCells b.shared.globally_visited base ps := by
        unfold admittedCells
        simp [List.filter_cons, hv]
      rw [hfold, bestAdmitStep_visited base b p hv, hadm]
      exact ih b htail
    · obtain ⟨hb1, hb2, hb3⟩ := bestAdmitStep_parts base b p hv
      obtain ⟨ih1, ih2⟩ := ih (bestAdmitStep base b p) htail
      have hadm2 : admittedCells (bestAdmitStep base b p).shared.globally_visited
          base ps = admittedCells b.shared.globally_visited base ps := by
        unfold admittedCells
        apply List.filter_congr
        intro q hq
        rw [hb1]
        have hiff : ((base.set_wall_at q true).to_string_representation ∈
            b.shared.globally_visited ++
              [(base.set_wall_at p true).to_string_representation]) ↔
            ((base.set_wall_at q true).to_string_representation ∈
              b.shared.globally_visited) := by
          rw [List.mem_append, List.mem_singleton]
          constructor
          · rintro (h | h)
            · exact h
            · exact absurd h.symm (hhead q hq)
          · exact Or.inl
        exact decide_eq_decide.mpr (not_congr hiff)
      have hscore2 : ∀ q ∈ admittedCells b.shared.globally_visited base ps,
          scoreOf (bestAdmitStep base b p).shared (base.set_wall_at q true) =
          scoreOf b.shared (base.set_wall_at q true) := by
        intro q hq
        have hqps : q ∈ ps := List.mem_of_mem_filter hq
        have hne : (base.set_wall_at q true).to_string_representation ≠
            (base.set_wall_at p true).to_string_representation :=
          fun h => (hhead q hqps) h.symm
        unfold scoreOf
        rcases hb3 with hc | hc
        · rw [hc]
        · rw [hc, cacheFind_cons_ne _ _ _ _ hne]
      have hadmp : admittedCells b.shared.globally_visited base (p :: ps) =
          p :: admittedCells b.shared.globally_visited base ps := by
        unfold admittedCells
        simp [List.filter_cons, hv]
      have hmap : (admittedCells b.shared.globally_visited base ps).map
          (fun q => (base.set_wall_at q true,
            scoreOf (bestAdmitStep base b p).shared (base.set_wall_at q true))) =
          (admittedCells b.shared.globally_visited base ps).map
          (fun q => (base.set_wall_at q true,
            scoreOf b.shared (base.set_wall_at q true))) :=
        List.map_congr_left (fun q hq => by rw [hscore2 q hq])
      constructor
      · rw [hfold, ih1, hadm2, hb1, hadmp]
        simp
      · rw [hfold, ih2, hadm2, hmap, hb2, hadmp]
        simp

/-- C9: in one best-first step from a popped layout, every candidate cell
whose derived layout's canonical key is not globally visited gets its
layout scored, marked visited, and pushed into the frontier — with no
local-improvement requirement — and for any two iteration orders of the
candidate cells (any two permutations of the placeable cells, e.g. the
shuffled and unshuffled orders) the resulting global visited set and the
resulting frontier contents agree up to permutation: shuffling changes
only the admission order, not which layouts are admitted. -/
theorem claim9_best_first_admission (b : BestCtx) (base : Maze)
    (cells cells2 : List Point)
    (h1 : cells.Perm (placeable_cells base))
    (h2 : cells2.Perm (placeable_cells base)) :
    (∀ p ∈ cells,
      (base.set_wall_at p true).to_string_representation ∉
        b.shared.globally_visited →
      (base.set_wall_at p true).to_string_representation ∈
        (bestAdmit b cells base).shared.globally_visited ∧
      (base.set_wall_at p true, scoreOf b.shared (base.set_wall_at p true)) ∈
        (bestAdmit b cells base).pq) ∧
    ((bestAdmit b cells base).shared.globally_visited).Perm
      ((bestAdmit b cells2 base).shared.globally_visited) ∧
    ((bestAdmit b cells base).pq).Perm ((bestAdmit b cells2 base).pq) := by
  have hpw1 : List.Pairwise (fun p q =>
      (base.set_wall_at p true).to_string_representation ≠
      (base.set_wall_at q true).to_string_representation) cells :=
    (List.Perm.pairwise_iff (fun hxy => Ne.symm hxy) h1).mpr
      (placeable_keys_pairwise base)
  have hpw2 : List.Pairwise (fun p q =>
      (base.set_wall_at p true).to_string_representation ≠
      (base.set_wall_at q true).to_string_representation) cells2 :=
    (List.Perm.pairwise_iff (fun hxy => Ne.symm hxy) h2).mpr
      (placeable_keys_pairwise base)
  obtain ⟨hs1, hs2⟩ := bestAdmit_spec base cells b hpw1
  obtain ⟨ht1, ht2⟩ := bestAdmit_spec base cells2 b hpw2
  have hadmperm : (admittedCells b.shared.globally_visited base cells).Perm
      (admittedCells b.shared.globally_visited base cells2) := by
    unfold admittedCells
    exact List.Perm.filter _ (h1.trans h2.symm)
  refine ⟨?_, ?_, ?_⟩
  · intro p hp hnv
    have hadm : p ∈ admittedCells b.shared.globally_visited base cells := by
      unfold admittedCells
      rw [List.mem_filter]
      exact ⟨hp, by simpa using hnv⟩
    constructor
    · rw [hs1]
      exact List.mem_append_right _ (List.mem_map_of_mem _ hadm)
    · rw [hs2]
      exact List.mem_append_left _ (List.mem_reverse.mpr (List.mem_map_of_mem _ hadm))
  · rw [hs1, ht1]
    exact List.Perm.append_left _ (List.Perm.map _ hadmperm)
  · rw [hs2, ht2]
    refine List.Perm.append_right _ ?_
    exact (List.reverse_perm _).trans
      ((List.Perm.map _ hadmperm).trans (List.reverse_perm _).symm)

/-- C9 witness: the step from the best-first seed context on the 2x2 grid,
with the placeable cells iterated in order and in reverse. -/
theorem claim9_witness :
    ((placeable_cells (emptyMaze 2 2)).Perm (placeable_cells (emptyMaze 2 2)) ∧
     ((placeable_cells (emptyMaze 2 2)).reverse).Perm
       (placeable_cells (emptyMaze 2 2))) ∧
    ((∀ p ∈ placeable_cells (emptyMaze 2 2),
      ((emptyMaze 2 2).set_wall_at p true).to_string_representation ∉
        (bestInit 2 2).shared.globally_visited →
      ((emptyMaze 2 2).set_wall_at p true).to_string_representation ∈
        (bestAdmit (bestInit 2 2) (placeable_cells (emptyMaze 2 2))
          (emptyMaze 2 2)).shared.globally_visited ∧
      ((emptyMaze 2 2).set_wall_at p true,
        scoreOf (bestInit 2 2).shared ((emptyMaze 2 2).set_wall_at p true)) ∈
        (bestAdmit (bestInit 2 2) (placeable_cells (emptyMaze 2 2))
          (emptyMaze 2 2)).pq) ∧
    ((bestAdmit (bestInit 2 2) (placeable_cells (emptyMaze 2 2))
        (emptyMaze 2 2)).shared.globally_visited).Perm
      ((bestAdmit (bestInit 2 2) ((placeable_cells (emptyMaze 2 2)).reverse)
        (emptyMaze 2 2)).shared.globally_visited) ∧
    ((bestAdmit (bestInit 2 2) (placeable_cells (emptyMaze 2 2))
        (emptyMaze 2 2)).pq).Perm
      ((bestAdmit (bestInit 2 2) ((placeable_cells (emptyMaze 2 2)).reverse)
        (emptyMaze 2 2)).pq)) :=
  ⟨⟨List.Perm.refl _, List.reverse_perm _⟩,
   claim9_best_first_admission (bestInit 2 2) (emptyMaze 2 2)
     (placeable_cells (emptyMaze 2 2)) ((placeable_cells (emptyMaze 2 2)).reverse)
     (List.Perm.refl _) (List.reverse_perm _)⟩

